import Mathlib

/-!
# Verification of the `graph_solver` constraint solver

A shallow embedding of `src/lib.rs` of the `graph_solver` crate.  Colors are
`Nat` (the Rust `u64` never overflows here: the code only compares colors and
XORs with 1, both order- and value-faithful on `Nat` for the values involved).
The interior-mutability cache cells (`std::cell::Cell<bool>`) become plain
`Bool` fields; every method that reads or writes a cell is embedded as a
function returning its result *and* the updated graph, exactly mirroring the
order of reads and writes in the source.
-/

namespace GraphSolver

/-- Edge constraint of a node template: `Constraint { edge, node }` in the source. -/
structure Constraint where
  edge : Nat
  node : Nat
deriving DecidableEq, Repr

/-- Node template: `Node { color, self_connected, edges }` in the source. -/
structure Node where
  color : Nat
  self_connected : Bool
  edges : List Constraint
deriving DecidableEq, Repr

/-- Default node used to totalize list indexing (the Rust code panics on
out-of-range indices; all claims are stated on in-range indices). -/
def dNode : Node := ⟨0, false, []⟩

/-- The graph state, with the five `Cell<bool>` caches as plain booleans.
Field order follows the Rust struct `Graph`. -/
structure Graph where
  nodes : List Node
  edges : List (List Nat)
  pairs : List (Nat × Nat)
  no_triangles : Bool
  meet_quad : Bool
  connected : Bool
  commute_quad : Option Bool
  cache_has_triangles : Bool
  cache_connected : Bool
  cache_upper_triangle_disconnected : Bool
  cache_commute_quad_satisfied : Bool
  cache_node_satisfied : List Bool
deriving DecidableEq

/-- `Graph::new()`. -/
def Graph.new : Graph :=
  ⟨[], [], [], false, false, false, none, false, false, false, false, []⟩

/-- `Puzzle::get` for `Graph`: canonicalize the unordered pair so the column
is at most the row, then read the lower-triangular matrix. -/
def Graph.get (g : Graph) (p : Nat × Nat) : Nat :=
  if p.2 ≤ p.1 then (g.edges.getD p.1 []).getD p.2 0
  else (g.edges.getD p.2 []).getD p.1 0

/-- `Puzzle::set` for `Graph`: write the canonical cell, then invalidate the
cache cells exactly as lines 158–169 of the source do. -/
def Graph.set (g : Graph) (p : Nat × Nat) (val : Nat) : Graph :=
  let i := p.1
  let j := p.2
  let old := if j ≤ i then (g.edges.getD i []).getD j 0 else (g.edges.getD j []).getD i 0
  { g with
    edges :=
      if j ≤ i then g.edges.set i ((g.edges.getD i []).set j val)
      else g.edges.set j ((g.edges.getD j []).set i val),
    cache_connected :=
      if old ≠ 0 ∧ val < 2 then false else g.cache_connected,
    cache_upper_triangle_disconnected :=
      if old ≠ 0 ∧ val < 2 then false else g.cache_upper_triangle_disconnected,
    cache_commute_quad_satisfied :=
      if ¬(old = 0 ∧ val = 1) then false else g.cache_commute_quad_satisfied,
    cache_has_triangles :=
      if old ≠ 0 then false else g.cache_has_triangles,
    cache_node_satisfied :=
      if old ≠ 0 then (g.cache_node_satisfied.set i false).set j false
      else g.cache_node_satisfied }

/-- `Graph::push`: append the node, a fresh all-`0` edge row of the new
length, and a fresh (unset) node-satisfaction cache cell. -/
def Graph.push (g : Graph) (node : Node) : Graph :=
  { g with
    nodes := g.nodes ++ [node],
    edges := g.edges ++ [List.replicate (g.nodes.length + 1) 0],
    cache_node_satisfied := g.cache_node_satisfied ++ [false] }

/-- `Graph::push_pair`: record the pair with the smaller index first. -/
def Graph.push_pair (g : Graph) (p : Nat × Nat) : Graph :=
  { g with pairs := g.pairs ++ [(min p.1 p.2, max p.1 p.2)] }

/-- Well-formed edge matrix shape: one row per node and row `i` of length
`i + 1`, as maintained by `Graph::push`. -/
def EdgesWF (g : Graph) : Prop :=
  g.edges.length = g.nodes.length ∧
  ∀ i, i < g.nodes.length → (g.edges.getD i []).length = i + 1

instance (g : Graph) : Decidable (EdgesWF g) := by
  unfold EdgesWF
  exact instDecidableAnd

theorem get_symm (g : Graph) (i j : Nat) : g.get (i, j) = g.get (j, i) := by
  unfold Graph.get
  rcases Nat.le_total i j with h | h
  · rcases Nat.lt_or_ge i j with h' | h'
    · simp only [Nat.not_le.mpr h', if_false, if_neg, h, if_pos]
    · have : i = j := Nat.le_antisymm h h'
      subst this; rfl
  · rcases Nat.lt_or_ge j i with h' | h'
    · simp only [Nat.not_le.mpr h', if_false, h, if_pos]
    · have : j = i := Nat.le_antisymm h h'
      subst this; rfl

theorem getD_set_self {l : List α} {n : Nat} {a d : α} (h : n < l.length) :
    (l.set n a).getD n d = a := by
  simp [List.getD_eq_getElem?_getD, List.getElem?_set_self h]

theorem getD_set_ne {l : List α} {n m : Nat} {a d : α} (h : n ≠ m) :
    (l.set n a).getD m d = l.getD m d := by
  simp [List.getD_eq_getElem?_getD, List.getElem?_set_ne h]

/-- Reading the freshly written cell of `set` gives the new value
(indices in range, well-formed shape). -/
theorem get_set_self (g : Graph) (hWF : EdgesWF g) (i j v : Nat)
    (hi : i < g.nodes.length) (hj : j < g.nodes.length) :
    (g.set (i, j) v).get (i, j) = v := by
  obtain ⟨hlen, hrow⟩ := hWF
  unfold Graph.set Graph.get
  by_cases h : j ≤ i
  · simp only [h, if_pos]
    have hi' : i < g.edges.length := by omega
    have hj' : j < (g.edges.getD i []).length := by rw [hrow i hi]; omega
    rw [getD_set_self hi', getD_set_self hj']
  · simp only [h, if_neg, if_false]
    have hj' : j < g.edges.length := by omega
    have hij : i < (g.edges.getD j []).length := by rw [hrow j hj]; omega
    rw [getD_set_self hj', getD_set_self hij]

/-- Writing one cell of the jagged matrix leaves every other cell, read via
`getD`, unchanged (also when the written row is out of range). -/
theorem row_set_other (e : List (List Nat)) (r c v r' c' : Nat)
    (h : ¬(r' = r ∧ c' = c)) :
    ((e.set r ((e.getD r []).set c v)).getD r' []).getD c' 0 =
      (e.getD r' []).getD c' 0 := by
  by_cases hr : r' = r
  · subst hr
    have hc : c ≠ c' := fun hc => h ⟨rfl, hc.symm⟩
    by_cases hlen : r' < e.length
    · rw [getD_set_self hlen, getD_set_ne hc]
    · rw [List.set_eq_of_length_le (Nat.le_of_not_lt hlen)]
  · rw [getD_set_ne (fun hc => hr hc.symm)]

/-- `set` leaves every other unordered pair unchanged (no shape hypothesis
needed: both reads hit exactly the same physical cells). -/
theorem get_set_other (g : Graph) (i j v k l : Nat)
    (h1 : ¬(k = i ∧ l = j)) (h2 : ¬(k = j ∧ l = i)) :
    (g.set (i, j) v).get (k, l) = g.get (k, l) := by
  unfold Graph.set Graph.get
  by_cases hij : j ≤ i <;> by_cases hkl : l ≤ k <;>
    simp only [hij, hkl, if_pos, if_neg, if_true, if_false, not_false_eq_true]
  · exact row_set_other g.edges i j v k l h1
  · exact row_set_other g.edges i j v l k (by tauto)
  · exact row_set_other g.edges j i v k l (by tauto)
  · exact row_set_other g.edges j i v l k (by tauto)

/-! ## Local node satisfaction (`Graph::node_satisfied`, lines 325–352) -/

/-- Template (required edge constraints) of node `i`. -/
def tmplOf (g : Graph) (i : Nat) : List Constraint := (g.nodes.getD i dNode).edges

/-- Color of node `j`. -/
def colorOf (g : Graph) (j : Nat) : Nat := (g.nodes.getD j dNode).color

/-- The inner `for k in 0..m.len()` search of `node_satisfied`: index of the
first slot that is still unmatched and whose constraint equals `c`
(the template and the mask are walked in lockstep; they always have equal
length in the source). -/
def findSlot : List Constraint → List Bool → Constraint → Option Nat
  | _, [], _ => none
  | [], _ :: _, _ => none
  | t :: ts, b :: bs, c =>
    if ¬b ∧ t = c then some 0 else (findSlot ts bs c).map (· + 1)

/-- The final `for k` loop of `node_satisfied`: constraints whose mask slot
stayed `false`, in template order. -/
def unmatched : List Constraint → List Bool → List Constraint
  | [], _ => []
  | _ :: _, [] => []
  | t :: ts, b :: bs => if b then unmatched ts bs else t :: unmatched ts bs

/-- One iteration of the `for j in 0..self.nodes.len()` loop of
`node_satisfied` for node `i`: skip when the edge value is `0`, otherwise
mark the first matching unmatched slot. -/
def nodeSatStep (g : Graph) (i : Nat) (m : List Bool) (j : Nat) : List Bool :=
  let edge := g.get (i, j)
  if edge = 0 then m
  else
    match findSlot (tmplOf g i) m ⟨edge, colorOf g j⟩ with
    | some k => m.set k true
    | none => m

/-- The mask after the whole `for j` loop of `node_satisfied`. -/
def nodeSatMask (g : Graph) (i : Nat) : List Bool :=
  (List.range g.nodes.length).foldl (nodeSatStep g i)
    (List.replicate (tmplOf g i).length false)

/-- The cache-free result of `node_satisfied` (the computation on lines
327–347, without the early cache return and the final cache store). -/
def nodeSatRes (g : Graph) (i : Nat) : List Constraint :=
  unmatched (tmplOf g i) (nodeSatMask g i)

/-- `Graph::node_satisfied(i)`: early return `[]` when the cache cell is
set; otherwise run the greedy matching and set the cell iff the result is
empty.  Returns the result together with the updated graph. -/
def Graph.node_satisfied (g : Graph) (i : Nat) : List Constraint × Graph :=
  if g.cache_node_satisfied.getD i false then ([], g)
  else
    let res := nodeSatRes g i
    (res,
      if res = [] then
        { g with cache_node_satisfied := g.cache_node_satisfied.set i true }
      else g)

/-- The `for i` loop of `all_satisfied` with its early `return false`. -/
def allSatAux : Graph → List Nat → Bool × Graph
  | g, [] => (true, g)
  | g, i :: is =>
    let r := g.node_satisfied i
    if r.1.length ≠ 0 then (false, r.2) else allSatAux r.2 is

/-- `Graph::all_satisfied()`. -/
def Graph.all_satisfied (g : Graph) : Bool × Graph :=
  allSatAux g (List.range g.nodes.length)

/-! ### A specification of the greedy matching

The spec (§4.2) describes `node_satisfied` as a first-fit matching with a
boolean mask: every participating edge `j` (in increasing order) marks the
first unmatched template slot carrying the pair `(edge color, neighbor node
color)`.  The net effect of such a pass depends only on the multiset of
participating `(edge, node)` pairs: each slot is marked iff the number of
equal pairs seen is larger than the number of equal template slots preceding
it.  `maskSpec` renders that denotation directly: a slot is marked iff an
equal pair remains in `seen` once each earlier equal slot has consumed one
occurrence. -/

/-- Number of occurrences of a constraint in a list. -/
def ccount (c : Constraint) : List Constraint → Nat
  | [] => 0
  | x :: xs => (if x = c then 1 else 0) + ccount c xs

/-- Remove the first occurrence of a constraint (if any). -/
def eraseC (c : Constraint) : List Constraint → List Constraint
  | [] => []
  | x :: xs => if x = c then xs else x :: eraseC c xs

/-- Denotational mask of a first-fit pass: slot `t` is marked iff `seen`
still holds an occurrence of `t` after the slots before it took theirs. -/
def maskSpec : List Constraint → List Constraint → List Bool
  | [], _ => []
  | t :: ts, seen => decide (0 < ccount t seen) :: maskSpec ts (eraseC t seen)

/-- Unmatched template slots of a first-fit pass over multiset `seen`, in
template order. -/
def resSpec (tmpl seen : List Constraint) : List Constraint :=
  unmatched tmpl (maskSpec tmpl seen)

/-- The `(edge color, neighbor node color)` pair contributed by scan
position `j` to the matching pass of node `i`, or `none` when the position
is skipped (the `if edge == 0 { continue }` test of the source; note color
`1` edges do participate). -/
def classFn (g : Graph) (i j : Nat) : Option Constraint :=
  let e := g.get (i, j)
  if e = 0 then none else some ⟨e, colorOf g j⟩

/-- The multiset of pairs participating in the matching pass for node `i`. -/
def classesOf (g : Graph) (i : Nat) : List Constraint :=
  (List.range g.nodes.length).filterMap (classFn g i)

/-- The participation rule claim C3 describes: only concrete edges
(color `≥ 2`). -/
def ge2Fn (g : Graph) (i j : Nat) : Option Constraint :=
  let e := g.get (i, j)
  if 2 ≤ e then some ⟨e, colorOf g j⟩ else none

/-- The multiset of pairs participating per claim C3's description. -/
def classesGe2 (g : Graph) (i : Nat) : List Constraint :=
  (List.range g.nodes.length).filterMap (ge2Fn g i)

/-- Greedy result as claim C3 words it (participation filter `≥ 2`). -/
def nodeSatSpecGe2 (g : Graph) (i : Nat) : List Constraint :=
  resSpec (tmplOf g i) (classesGe2 g i)

/-- Greedy result with the source's participation filter (`≠ 0`). -/
def nodeSatSpecNZ (g : Graph) (i : Nat) : List Constraint :=
  resSpec (tmplOf g i) (classesOf g i)

theorem ccount_cons (c x : Constraint) (l : List Constraint) :
    ccount c (x :: l) = (if x = c then 1 else 0) + ccount c l := rfl

theorem ccount_eraseC (c t : Constraint) (l : List Constraint) :
    ccount c (eraseC t l) = ccount c l - (if c = t then 1 else 0) := by
  induction l with
  | nil => simp [ccount, eraseC]
  | cons x xs ih =>
    unfold eraseC
    by_cases hx : x = t
    · subst hx
      rw [if_pos rfl, ccount_cons]
      by_cases hc : c = x
      · subst hc; simp
      · rw [if_neg (fun h => hc h.symm), if_neg hc]; omega
    · rw [if_neg hx, ccount_cons, ccount_cons, ih]
      by_cases hc : c = t
      · subst hc
        rw [if_pos rfl]
        have hxc : ¬x = c := hx
        rw [if_neg hxc]
        omega
      · rw [if_neg hc]
        by_cases hxc : x = c
        · rw [if_pos hxc]; omega
        · rw [if_neg hxc]; omega

theorem maskSpec_congr (T : List Constraint) :
    ∀ cs cs', (∀ x, ccount x cs = ccount x cs') →
    maskSpec T cs = maskSpec T cs' := by
  induction T with
  | nil => intro cs cs' _; rfl
  | cons t ts ih =>
    intro cs cs' h
    unfold maskSpec
    rw [h t, ih (eraseC t cs) (eraseC t cs')
      (fun x => by rw [ccount_eraseC, ccount_eraseC, h x])]

theorem ccount_append (c : Constraint) (l₁ l₂ : List Constraint) :
    ccount c (l₁ ++ l₂) = ccount c l₁ + ccount c l₂ := by
  induction l₁ with
  | nil => simp [ccount]
  | cons x xs ih => simp [ccount, ih]; omega

theorem maskSpec_cons (t : Constraint) (ts seen : List Constraint) :
    maskSpec (t :: ts) seen =
      decide (0 < ccount t seen) :: maskSpec ts (eraseC t seen) := rfl

/-- Pushing the `match` on a `(· + 1)`-shifted index below a `cons`. -/
theorem match_set_cons (d : Bool) (M : List Bool) (o : Option Nat) :
    (match o.map (· + 1) with
     | some k => (d :: M).set k true
     | none => d :: M) =
    d :: (match o with | some k => M.set k true | none => M) := by
  cases o <;> rfl

/-- Operational/denotational agreement of one first-fit step: marking the
first unmatched slot equal to `c` in `maskSpec tmpl cs` yields
`maskSpec tmpl (c :: cs)`. -/
theorem findSlot_maskSpec_step (T : List Constraint) :
    ∀ cs c,
    (match findSlot T (maskSpec T cs) c with
     | some k => (maskSpec T cs).set k true
     | none => maskSpec T cs) = maskSpec T (c :: cs) := by
  induction T with
  | nil => intro cs c; rfl
  | cons t ts ih =>
    intro cs c
    by_cases htc : t = c
    · subst htc
      by_cases hcnt : 0 < ccount t cs
      · -- head already marked: the search walks into the tail
        have hd : decide (0 < ccount t cs) = true := by simpa using hcnt
        have htail : maskSpec ts (t :: eraseC t cs) = maskSpec ts cs := by
          refine maskSpec_congr _ _ _ fun x => ?_
          rw [ccount_cons, ccount_eraseC]
          by_cases hx : x = t
          · subst hx; rw [if_pos rfl]; omega
          · rw [if_neg fun h => hx h.symm, if_neg hx]; omega
        have hrhs : maskSpec (t :: ts) (t :: cs) =
            true :: maskSpec ts cs := by
          rw [maskSpec_cons]
          have h1 : eraseC t (t :: cs) = cs := by simp [eraseC]
          have h2 : 0 < ccount t (t :: cs) := by rw [ccount_cons]; simp
          rw [h1]
          simp [h2]
        rw [hrhs, maskSpec_cons]
        show (match
            (if ¬(decide (0 < ccount t cs) : Bool) ∧ t = t then some 0
             else (findSlot ts (maskSpec ts (eraseC t cs)) t).map (· + 1)) with
          | some k =>
              (decide (0 < ccount t cs) :: maskSpec ts (eraseC t cs)).set k true
          | none => decide (0 < ccount t cs) :: maskSpec ts (eraseC t cs)) =
          true :: maskSpec ts cs
        rw [if_neg (by simp [hd])]
        rw [match_set_cons, ih (eraseC t cs) t, htail, hd]
      · -- head slot unmatched and equal: it is the one marked now
        have hd : decide (0 < ccount t cs) = false := by simpa using hcnt
        have hcnt0 : ccount t cs = 0 := by omega
        rw [maskSpec_cons]
        show (match
            (if ¬(decide (0 < ccount t cs) : Bool) ∧ t = t then some 0
             else (findSlot ts (maskSpec ts (eraseC t cs)) t).map (· + 1)) with
          | some k =>
              (decide (0 < ccount t cs) :: maskSpec ts (eraseC t cs)).set k true
          | none => decide (0 < ccount t cs) :: maskSpec ts (eraseC t cs)) =
          maskSpec (t :: ts) (t :: cs)
        rw [if_pos (by simp [hd])]
        rw [maskSpec_cons]
        have h1 : eraseC t (t :: cs) = cs := by simp [eraseC]
        have h2 : 0 < ccount t (t :: cs) := by rw [ccount_cons]; simp
        rw [h1]
        have h3 : maskSpec ts (eraseC t cs) = maskSpec ts cs := by
          refine maskSpec_congr _ _ _ fun x => ?_
          rw [ccount_eraseC]
          by_cases hx : x = t
          · subst hx; rw [if_pos rfl]; omega
          · rw [if_neg hx]; omega
        show true :: maskSpec ts (eraseC t cs) =
          decide (0 < ccount t (t :: cs)) :: maskSpec ts cs
        rw [h3]
        simp [h2]
    · -- head slot carries a different constraint: untouched either way
      have hcc : ccount t (c :: cs) = ccount t cs := by
        rw [ccount_cons, if_neg (fun h => htc h.symm)]
        omega
      have hct : ¬c = t := fun h => htc h.symm
      have herase : eraseC t (c :: cs) = c :: eraseC t cs := by
        simp [eraseC, hct]
      rw [maskSpec_cons]
      show (match
          (if ¬(decide (0 < ccount t cs) : Bool) ∧ t = c then some 0
           else (findSlot ts (maskSpec ts (eraseC t cs)) c).map (· + 1)) with
        | some k =>
            (decide (0 < ccount t cs) :: maskSpec ts (eraseC t cs)).set k true
        | none => decide (0 < ccount t cs) :: maskSpec ts (eraseC t cs)) =
        maskSpec (t :: ts) (c :: cs)
      rw [if_neg (by simp [htc])]
      rw [match_set_cons, ih (eraseC t cs) c, maskSpec_cons, hcc, herase]

theorem maskSpec_empty (T : List Constraint) :
    maskSpec T [] = List.replicate T.length false := by
  induction T with
  | nil => rfl
  | cons t ts ih => simp [maskSpec, ccount, eraseC, ih, List.replicate]

/-- Participating classes contributed by a sublist of scan positions. -/
def classesAlong (g : Graph) (i : Nat) (js : List Nat) : List Constraint :=
  js.filterMap (classFn g i)

theorem classFn_none (g : Graph) (i j : Nat) (he : g.get (i, j) = 0) :
    classFn g i j = none := by
  unfold classFn
  exact if_pos he

theorem classFn_some (g : Graph) (i j : Nat) (he : ¬g.get (i, j) = 0) :
    classFn g i j = some ⟨g.get (i, j), colorOf g j⟩ := by
  unfold classFn
  exact if_neg he

theorem nodeSatStep_skip (g : Graph) (i : Nat) (m : List Bool) (j : Nat)
    (he : g.get (i, j) = 0) : nodeSatStep g i m j = m := by
  unfold nodeSatStep
  exact if_pos he

theorem nodeSatStep_part (g : Graph) (i : Nat) (seen : List Constraint)
    (j : Nat) (he : ¬g.get (i, j) = 0) :
    nodeSatStep g i (maskSpec (tmplOf g i) seen) j =
      maskSpec (tmplOf g i) (⟨g.get (i, j), colorOf g j⟩ :: seen) := by
  unfold nodeSatStep
  rw [if_neg he]
  exact findSlot_maskSpec_step (tmplOf g i) seen ⟨g.get (i, j), colorOf g j⟩

theorem nodeSat_fold (g : Graph) (i : Nat) (js : List Nat) :
    ∀ seen : List Constraint,
    js.foldl (nodeSatStep g i) (maskSpec (tmplOf g i) seen) =
      maskSpec (tmplOf g i) (classesAlong g i js ++ seen) := by
  induction js with
  | nil => intro seen; rfl
  | cons j js ih =>
    intro seen
    rw [List.foldl_cons]
    by_cases he : g.get (i, j) = 0
    · rw [nodeSatStep_skip g i _ j he, ih seen]
      have : classesAlong g i (j :: js) = classesAlong g i js := by
        unfold classesAlong
        rw [List.filterMap_cons_none (classFn_none g i j he)]
      rw [this]
    · rw [nodeSatStep_part g i seen j he,
        ih (⟨g.get (i, j), colorOf g j⟩ :: seen)]
      have : classesAlong g i (j :: js) =
          ⟨g.get (i, j), colorOf g j⟩ :: classesAlong g i js := by
        unfold classesAlong
        rw [List.filterMap_cons_some (classFn_some g i j he)]
      rw [this]
      refine maskSpec_congr _ _ _ fun x => ?_
      rw [List.cons_append, ccount_cons, ccount_append, ccount_cons,
        ccount_append]
      omega

/-- The mask computed by `node_satisfied` is the denotational first-fit
mask over the multiset of participating pairs. -/
theorem nodeSatMask_eq (g : Graph) (i : Nat) :
    nodeSatMask g i = maskSpec (tmplOf g i) (classesOf g i) := by
  unfold nodeSatMask
  rw [← maskSpec_empty (tmplOf g i), nodeSat_fold]
  rw [List.append_nil]
  rfl

/-- `node_satisfied`'s cache-free result is the denotational first-fit
result over the participating (edge ≠ 0) pairs. -/
theorem nodeSatRes_eq (g : Graph) (i : Nat) :
    nodeSatRes g i = nodeSatSpecNZ g i := by
  unfold nodeSatRes nodeSatSpecNZ resSpec
  rw [nodeSatMask_eq]

theorem resSpec_cons (t : Constraint) (ts cs : List Constraint) :
    resSpec (t :: ts) cs =
      if 0 < ccount t cs then resSpec ts (eraseC t cs)
      else t :: resSpec ts (eraseC t cs) := by
  unfold resSpec
  rw [maskSpec_cons]
  by_cases h : 0 < ccount t cs
  · simp [unmatched, h]
  · simp [unmatched, h]

/-- First-fit satisfaction is monotone in the multiset of participating
pairs: adding pairs can only mark more slots. -/
theorem resSpec_mono (T : List Constraint) :
    ∀ cs cs', (∀ c, ccount c cs ≤ ccount c cs') →
    resSpec T cs = [] → resSpec T cs' = [] := by
  induction T with
  | nil => intro cs cs' _ _; rfl
  | cons t ts ih =>
    intro cs cs' hle h
    rw [resSpec_cons] at h ⊢
    by_cases hc : 0 < ccount t cs
    · have hc' : 0 < ccount t cs' := Nat.lt_of_lt_of_le hc (hle t)
      rw [if_pos hc] at h
      rw [if_pos hc']
      refine ih _ _ (fun c => ?_) h
      rw [ccount_eraseC, ccount_eraseC]
      have h2 := hle c
      by_cases hct : c = t
      · rw [if_pos hct]; omega
      · rw [if_neg hct]; omega
    · rw [if_neg hc] at h
      exact absurd h (List.cons_ne_nil _ _)

theorem ccount_filterMap_mono (f f' : Nat → Option Constraint)
    (l : List Nat) (h : ∀ a ∈ l, f a = f' a ∨ f a = none) (c : Constraint) :
    ccount c (l.filterMap f) ≤ ccount c (l.filterMap f') := by
  induction l with
  | nil => exact Nat.le_refl _
  | cons a l ih =>
    have ha := h a (List.mem_cons_self a l)
    have ih' := ih fun b hb => h b (List.mem_cons_of_mem a hb)
    rcases ha with ha | ha
    · cases hfa : f' a with
      | none =>
        rw [List.filterMap_cons_none (ha.trans hfa),
          List.filterMap_cons_none hfa]
        exact ih'
      | some x =>
        rw [List.filterMap_cons_some (ha.trans hfa),
          List.filterMap_cons_some hfa, ccount_cons, ccount_cons]
        exact Nat.add_le_add_left ih' _
    · rw [List.filterMap_cons_none ha]
      cases hfa : f' a with
      | none =>
        rw [List.filterMap_cons_none hfa]
        exact ih'
      | some x =>
        rw [List.filterMap_cons_some hfa, ccount_cons]
        exact Nat.le_trans ih' (Nat.le_add_left _ _)

/-! ### Instrumented matching scan (for the no-double-match property) -/

/-- One step of the matching pass of `node_satisfied`, additionally
recording which template slot the scan position marked. -/
def scanStep (g : Graph) (i : Nat) (acc : List Bool × List (Nat × Nat))
    (j : Nat) : List Bool × List (Nat × Nat) :=
  let edge := g.get (i, j)
  if edge = 0 then acc
  else
    match findSlot (tmplOf g i) acc.1 ⟨edge, colorOf g j⟩ with
    | some k => (acc.1.set k true, acc.2 ++ [(j, k)])
    | none => acc

/-- The matching pass of `node_satisfied`, with the recorded
(scan position, marked slot) pairs. -/
def nodeSatScan (g : Graph) (i : Nat) : List Bool × List (Nat × Nat) :=
  (List.range g.nodes.length).foldl (scanStep g i)
    (List.replicate (tmplOf g i).length false, [])

theorem scanStep_skip (g : Graph) (i : Nat) (acc : List Bool × List (Nat × Nat))
    (j : Nat) (he : g.get (i, j) = 0) : scanStep g i acc j = acc := by
  unfold scanStep
  exact if_pos he

theorem scanStep_found (g : Graph) (i j : Nat) (m : List Bool)
    (tr : List (Nat × Nat)) (k : Nat) (he : ¬g.get (i, j) = 0)
    (hfs : findSlot (tmplOf g i) m ⟨g.get (i, j), colorOf g j⟩ = some k) :
    scanStep g i (m, tr) j = (m.set k true, tr ++ [(j, k)]) := by
  unfold scanStep
  rw [if_neg he, hfs]

theorem scanStep_fail (g : Graph) (i j : Nat) (m : List Bool)
    (tr : List (Nat × Nat)) (he : ¬g.get (i, j) = 0)
    (hfs : findSlot (tmplOf g i) m ⟨g.get (i, j), colorOf g j⟩ = none) :
    scanStep g i (m, tr) j = (m, tr) := by
  unfold scanStep
  rw [if_neg he, hfs]

theorem findSlot_found : ∀ (T : List Constraint) (m : List Bool)
    (c : Constraint) (k : Nat), findSlot T m c = some k →
    k < m.length ∧ m.getD k false = false := by
  intro T
  induction T with
  | nil =>
    intro m c k h
    cases m with
    | nil => exact absurd h (by simp [findSlot])
    | cons b bs => exact absurd h (by simp [findSlot])
  | cons t ts ih =>
    intro m c k h
    cases m with
    | nil => exact absurd h (by simp [findSlot])
    | cons b bs =>
      unfold findSlot at h
      by_cases hcond : ¬b ∧ t = c
      · rw [if_pos hcond] at h
        cases h
        refine ⟨Nat.succ_pos _, ?_⟩
        simpa using Bool.of_not_eq_true hcond.1
      · rw [if_neg hcond] at h
        cases hfs : findSlot ts bs c with
        | none => rw [hfs] at h; exact absurd h (by simp)
        | some k' =>
          rw [hfs] at h
          simp only [Option.map_some'] at h
          cases h
          obtain ⟨h1, h2⟩ := ih bs c k' hfs
          exact ⟨Nat.succ_lt_succ h1, h2⟩

theorem nodeSatScan_snd_nodup (g : Graph) (i : Nat) :
    ((nodeSatScan g i).2.map Prod.snd).Nodup := by
  unfold nodeSatScan
  suffices h : ∀ (js : List Nat) (m : List Bool) (tr : List (Nat × Nat)),
      (∀ p ∈ tr, m.getD p.2 false = true) → (tr.map Prod.snd).Nodup →
      ((js.foldl (scanStep g i) (m, tr)).2.map Prod.snd).Nodup by
    exact h _ _ [] (by simp) (by simp)
  intro js
  induction js with
  | nil => intro m tr h1 h2; exact h2
  | cons j js ih =>
    intro m tr h1 h2
    rw [List.foldl_cons]
    by_cases he : g.get (i, j) = 0
    · rw [scanStep_skip g i (m, tr) j he]
      exact ih m tr h1 h2
    · cases hfs : findSlot (tmplOf g i) m ⟨g.get (i, j), colorOf g j⟩ with
      | none =>
        rw [scanStep_fail g i j m tr he hfs]
        exact ih m tr h1 h2
      | some k =>
        obtain ⟨hk, hkf⟩ := findSlot_found _ _ _ _ hfs
        rw [scanStep_found g i j m tr k he hfs]
        refine ih (m.set k true) (tr ++ [(j, k)]) ?_ ?_
        · intro p hp
          rcases List.mem_append.mp hp with hp | hp
          · have := h1 p hp
            by_cases hpk : p.2 = k
            · rw [hpk, getD_set_self hk]
            · rw [getD_set_ne (fun hc => hpk hc.symm)]; exact this
          · have : p = (j, k) := by simpa using hp
            rw [this, getD_set_self hk]
        · rw [List.map_append]
          simp only [List.map_cons, List.map_nil]
          rw [List.nodup_append]
          refine ⟨h2, List.nodup_singleton _, ?_⟩
          intro a ha hb
          have hak : a = k := by simpa using hb
          subst hak
          obtain ⟨p, hp, hpa⟩ := List.mem_map.mp ha
          have := h1 p hp
          rw [hpa] at this
          rw [this] at hkf
          exact Bool.noConfusion hkf

theorem nodeSatStep_found (g : Graph) (i j : Nat) (m : List Bool) (k : Nat)
    (he : ¬g.get (i, j) = 0)
    (hfs : findSlot (tmplOf g i) m ⟨g.get (i, j), colorOf g j⟩ = some k) :
    nodeSatStep g i m j = m.set k true := by
  unfold nodeSatStep
  rw [if_neg he, hfs]

theorem nodeSatStep_fail (g : Graph) (i j : Nat) (m : List Bool)
    (he : ¬g.get (i, j) = 0)
    (hfs : findSlot (tmplOf g i) m ⟨g.get (i, j), colorOf g j⟩ = none) :
    nodeSatStep g i m j = m := by
  unfold nodeSatStep
  rw [if_neg he, hfs]

/-- The instrumented scan computes the same mask as `node_satisfied`. -/
theorem nodeSatScan_fst (g : Graph) (i : Nat) :
    (nodeSatScan g i).1 = nodeSatMask g i := by
  unfold nodeSatScan nodeSatMask
  suffices h : ∀ (js : List Nat) (m : List Bool) (tr : List (Nat × Nat)),
      (js.foldl (scanStep g i) (m, tr)).1 = js.foldl (nodeSatStep g i) m by
    exact h _ _ []
  intro js
  induction js with
  | nil => intro m tr; rfl
  | cons j js ih =>
    intro m tr
    rw [List.foldl_cons, List.foldl_cons]
    by_cases he : g.get (i, j) = 0
    · rw [scanStep_skip g i (m, tr) j he, nodeSatStep_skip g i m j he]
      exact ih m tr
    · cases hfs : findSlot (tmplOf g i) m ⟨g.get (i, j), colorOf g j⟩ with
      | none =>
        rw [scanStep_fail g i j m tr he hfs, nodeSatStep_fail g i j m he hfs]
        exact ih m tr
      | some k =>
        rw [scanStep_found g i j m tr k he hfs,
          nodeSatStep_found g i j m k he hfs]
        exact ih (m.set k true) (tr ++ [(j, k)])

theorem maskSpec_length (T : List Constraint) :
    ∀ s, (maskSpec T s).length = T.length := by
  induction T with
  | nil => intro s; rfl
  | cons t ts ih => intro s; rw [maskSpec_cons, List.length_cons, ih]; rfl

theorem nodeSatMask_length (g : Graph) (i : Nat) :
    (nodeSatMask g i).length = (tmplOf g i).length := by
  rw [nodeSatMask_eq]
  exact maskSpec_length _ _

theorem unmatched_eq_nil (T : List Constraint) :
    ∀ m : List Bool, m.length = T.length →
    (unmatched T m = [] ↔ m.all (fun b => b) = true) := by
  induction T with
  | nil =>
    intro m hm
    have : m = [] := List.length_eq_zero.mp hm
    subst this
    simp [unmatched]
  | cons t ts ih =>
    intro m hm
    cases m with
    | nil => exact absurd hm (by simp)
    | cons b bs =>
      have hlen : bs.length = ts.length := by simpa using hm
      cases b with
      | true => simpa [unmatched] using ih bs hlen
      | false => simp [unmatched]

/-- The early cache read of `node_satisfied` untaken, its result is exactly
the cache-free greedy computation. -/
theorem node_satisfied_fst (g : Graph) (i : Nat)
    (h : g.cache_node_satisfied.getD i false = false) :
    (g.node_satisfied i).1 = nodeSatRes g i := by
  unfold Graph.node_satisfied
  rw [if_neg (by rw [h]; exact Bool.false_ne_true)]

/-- Claim C3 (corrected participation filter): whenever node `i`'s cache
cell is unset, `node_satisfied(i)` returns exactly the template constraints
left unmatched by the greedy first-fit pass in which every scan position `j`
with `get(i,j) ≠ 0` participates (so definite non-edges of color `1` do
participate, contrary to the claim's `≥ 2` filter), in template order. -/
theorem node_satisfied_eq_greedy_nonzero (g : Graph) (i : Nat)
    (h : g.cache_node_satisfied.getD i false = false) :
    (g.node_satisfied i).1 = nodeSatSpecNZ g i := by
  rw [node_satisfied_fst g i h]
  exact nodeSatRes_eq g i

/-- Witness for `node_satisfied_eq_greedy_nonzero` at a concrete graph. -/
theorem node_satisfied_eq_greedy_nonzero_witness :
    (Graph.new.push ⟨0, false, []⟩).cache_node_satisfied.getD 0 false = false ∧
    ((Graph.new.push ⟨0, false, []⟩).node_satisfied 0).1 =
      nodeSatSpecNZ (Graph.new.push ⟨0, false, []⟩) 0 :=
  ⟨by decide, node_satisfied_eq_greedy_nonzero (Graph.new.push ⟨0, false, []⟩) 0
    (by decide)⟩

/-- A two-node graph whose first node requires a constraint with edge color
`1` and whose single edge is the definite non-edge color `1`. -/
def gC3 : Graph :=
  ((Graph.new.push ⟨0, false, [⟨1, 0⟩]⟩).push ⟨0, false, []⟩).set (0, 1) 1

/-- Counterexample to claim C3 as stated: the code lets the color-`1` edge
`(0,1)` match the template constraint `{edge: 1, node: 0}` (its `continue`
test is `edge == 0`, not `edge < 2`), so `node_satisfied(0)` returns `[]`,
while the claim's greedy pass — in which only edges of color `≥ 2`
participate — leaves that constraint unmatched. -/
theorem node_satisfied_matches_disconnected_edge :
    (gC3.node_satisfied 0).1 = [] ∧ nodeSatSpecGe2 gC3 0 = [⟨1, 0⟩] ∧
    gC3.get (0, 1) = 1 ∧ gC3.cache_node_satisfied.getD 0 false = false := by
  decide

/-- Claim C4 (amended): with node `i`'s cache cell unset, the node is
reported satisfied iff the greedy first-fit pass marks every template slot
(a concrete incident edge matching no template constraint is simply ignored
and does not prevent satisfaction), and no template slot is ever matched by
two distinct scan positions. -/
theorem node_satisfied_first_fit_char (g : Graph) (i : Nat)
    (h : g.cache_node_satisfied.getD i false = false) :
    ((g.node_satisfied i).1 = [] ↔ (nodeSatMask g i).all (fun b => b) = true) ∧
    (nodeSatScan g i).1 = nodeSatMask g i ∧
    ((nodeSatScan g i).2.map Prod.snd).Nodup := by
  refine ⟨?_, nodeSatScan_fst g i, nodeSatScan_snd_nodup g i⟩
  rw [node_satisfied_fst g i h]
  unfold nodeSatRes
  exact unmatched_eq_nil (tmplOf g i) (nodeSatMask g i) (nodeSatMask_length g i)

/-- Witness for `node_satisfied_first_fit_char` at a concrete graph. -/
theorem node_satisfied_first_fit_char_witness :
    (((Graph.new.push ⟨0, false, []⟩).node_satisfied 0).1 = [] ↔
      (nodeSatMask (Graph.new.push ⟨0, false, []⟩) 0).all (fun b => b) = true) ∧
    (nodeSatScan (Graph.new.push ⟨0, false, []⟩) 0).1 =
      nodeSatMask (Graph.new.push ⟨0, false, []⟩) 0 ∧
    ((nodeSatScan (Graph.new.push ⟨0, false, []⟩) 0).2.map Prod.snd).Nodup :=
  node_satisfied_first_fit_char (Graph.new.push ⟨0, false, []⟩) 0 (by decide)

/-- Two trivial nodes (empty templates) joined by a concrete edge. -/
def gC4 : Graph :=
  ((Graph.new.push ⟨0, false, []⟩).push ⟨0, false, []⟩).set (0, 1) 2

/-- Counterexample to claim C4 as stated: node `0` has the concrete
incident edge `(0,1)` of color `2` whose pair matches none of its (zero)
template constraints, yet `node_satisfied(0)` is empty and `all_satisfied`
reports the graph satisfied — unmatched incident edges are ignored. -/
theorem dangling_edge_node_still_satisfied :
    (gC4.node_satisfied 0).1 = [] ∧ (gC4.all_satisfied).1 = true ∧
    gC4.get (0, 1) = 2 ∧ tmplOf gC4 0 = [] := by
  decide

/-! ## Global predicates -/

/-- The triangle search of `has_triangles` (lines 373–387), cache aside:
exists `i < j < k` with all three pairwise edges concrete (`≥ 2`). -/
def htCore (g : Graph) : Bool :=
  (List.range g.nodes.length).any fun i =>
    (List.range' (i + 1) (g.nodes.length - (i + 1))).any fun j =>
      if g.get (i, j) < 2 then false
      else
        (List.range' (j + 1) (g.nodes.length - (j + 1))).any fun k =>
          decide (2 ≤ g.get (j, k)) && decide (2 ≤ g.get (i, k))

/-- `Graph::has_triangles()`: early cache read, search, cache store on
success. -/
def Graph.has_triangles (g : Graph) : Bool × Graph :=
  if g.cache_has_triangles then (true, g)
  else if htCore g then (true, { g with cache_has_triangles := true })
  else (false, g)

/-- The scan of `is_upper_right_disconnected` (lines 531–543), cache aside:
`n` even and every pair `(i, j)` with `i < n/2 ≤ j < n` pinned to color `1`
(the `i == j` continue of the source is kept although it never fires). -/
def upperCore (g : Graph) : Bool :=
  decide (g.nodes.length % 2 = 0) &&
    ((List.range (g.nodes.length / 2)).all fun i =>
      (List.range' (g.nodes.length / 2)
          (g.nodes.length - g.nodes.length / 2)).all fun j =>
        decide (i = j) || decide (g.get (i, j) = 1))

/-- `Graph::is_upper_right_disconnected()`. -/
def Graph.is_upper_right_disconnected (g : Graph) : Bool × Graph :=
  if g.cache_upper_triangle_disconnected then (true, g)
  else if upperCore g then
    (true, { g with cache_upper_triangle_disconnected := true })
  else (false, g)

/-- The anticommute test of one quad (lines 458–466 and 477–485): both
opposite pairs agree up to the parity bit and exactly one of them is a sign
flip. -/
def antiS (ij jk kk2 ik2 : Nat) : Bool :=
  let x0 := decide (ij ^^^ 1 = kk2)
  let x1 := decide (ij = kk2)
  let y0 := decide (jk ^^^ 1 = ik2)
  let y1 := decide (jk = ik2)
  if (xor x0 x1) && (xor y0 y1) then xor x0 y0 else false

/-- The per-`k2` body of the quad scan of `commute_quad_satisfied`
(lines 450–488): the two orientation patterns with their commute
(equality) or anticommute (`antiS`) tests. -/
def commuteBody (g : Graph) (commute : Bool) (i j k k2 : Nat) : Bool :=
  if 2 ≤ g.get (k, k2) ∧ 2 ≤ g.get (j, k) ∧ 2 ≤ g.get (i, k2) then
    if commute then
      decide (g.get (i, j) = g.get (k, k2)) &&
        decide (g.get (i, k2) = g.get (j, k))
    else
      antiS (g.get (i, j)) (g.get (j, k)) (g.get (k, k2)) (g.get (i, k2))
  else if 2 ≤ g.get (k, k2) ∧ 2 ≤ g.get (i, k) ∧ 2 ≤ g.get (j, k2) then
    if commute then
      decide (g.get (i, k) = g.get (j, k2)) &&
        decide (g.get (i, j) = g.get (k, k2))
    else
      antiS (g.get (i, k)) (g.get (i, j)) (g.get (j, k2)) (g.get (k, k2))
  else true

/-- The `for k2 in 0..n` loop of the quad scan. -/
def commuteK2Loop (g : Graph) (commute : Bool) (n i j k : Nat) : Bool :=
  (List.range n).all fun k2 =>
    if k2 = i ∨ k2 = j ∨ k2 = k then true
    else commuteBody g commute i j k k2

/-- The `for k in j+1..n` loop of the quad scan. -/
def commuteKLoop (g : Graph) (commute : Bool) (n i j : Nat) : Bool :=
  (List.range' (j + 1) (n - (j + 1))).all fun k =>
    if k = i then true
    else if g.get (j, k) < 2 ∧ g.get (i, k) < 2 then true
    else commuteK2Loop g commute n i j k

/-- The quad scan of `commute_quad_satisfied` (lines 439–492), cache
aside: every quad found in either orientation must pass its test. -/
def commuteCore (g : Graph) (commute : Bool) : Bool :=
  (List.range g.nodes.length).all fun i =>
    (List.range g.nodes.length).all fun j =>
      if i = j then true
      else if g.get (i, j) < 2 then true
      else commuteKLoop g commute g.nodes.length i j

/-- `Graph::commute_quad_satisfied(commute)`: note the early cache read
ignores the argument, and the cache store happens whenever the scan with
the *given* argument passes. -/
def Graph.commute_quad_satisfied (g : Graph) (commute : Bool) : Bool × Graph :=
  if g.cache_commute_quad_satisfied then (true, g)
  else if commuteCore g commute then
    (true, { g with cache_commute_quad_satisfied := true })
  else (false, g)

/-- One in-place sweep of the reachability loop of `is_connected`
(lines 507–521): an unreached node becomes reached if some already (or
earlier in this very sweep) reached node is adjacent via a concrete edge. -/
def connPass (g : Graph) (r0 : List Bool) : List Bool :=
  (List.range g.nodes.length).foldl
    (fun r i =>
      if r.getD i false then r
      else if (List.range g.nodes.length).any fun j =>
          r.getD j false && decide (2 ≤ g.get (i, j)) then r.set i true
      else r) r0

/-- The seeding loop of `is_connected` (lines 502–506): exactly the nodes
with a concrete edge to node `0` (node `0` itself only via a self-loop). -/
def connInit (g : Graph) : List Bool :=
  (List.range g.nodes.length).map fun i => decide (2 ≤ g.get (0, i))

/-- Iterated sweeps. -/
def connIter (g : Graph) : Nat → List Bool → List Bool
  | 0, r => r
  | fuel + 1, r => connIter g fuel (connPass g r)

/-- The `loop { … if !changed { break } }` of `is_connected`, cache aside.
The source repeats `connPass` until a sweep changes nothing; every earlier
sweep marks at least one more of the `n` nodes, so the fixpoint is reached
within `n` sweeps, a sweep at the fixpoint is the identity, and running
`n + 1` sweeps unconditionally yields the loop's final vector. -/
def connCore (g : Graph) : Bool :=
  (connIter g (g.nodes.length + 1) (connInit g)).all fun b => b

/-- `Graph::is_connected()`. -/
def Graph.is_connected (g : Graph) : Bool × Graph :=
  if g.cache_connected then (true, g)
  else (connCore g, if connCore g then { g with cache_connected := true } else g)

/-! ## Sorting and consecutive deduplication (`res.sort(); res.dedup()`) -/

/-- Insert into a sorted list (stable, like `Vec::sort`; on `Nat` any
correct sort produces the same list). -/
def sortedInsert (a : Nat) : List Nat → List Nat
  | [] => [a]
  | b :: bs => if a ≤ b then a :: b :: bs else b :: sortedInsert a bs

/-- Insertion sort. -/
def insertionSort : List Nat → List Nat
  | [] => []
  | a :: as => sortedInsert a (insertionSort as)

/-- Rust's `Vec::dedup`: removes consecutive duplicates. -/
def dedupConsec : List Nat → List Nat
  | [] => []
  | [a] => [a]
  | a :: b :: rest =>
    if a = b then dedupConsec (b :: rest) else a :: dedupConsec (b :: rest)

theorem mem_sortedInsert (x a : Nat) :
    ∀ l, x ∈ sortedInsert a l ↔ x = a ∨ x ∈ l := by
  intro l
  induction l with
  | nil => simp [sortedInsert]
  | cons b bs ih =>
    unfold sortedInsert
    by_cases hab : a ≤ b
    · rw [if_pos hab]; simp
    · rw [if_neg hab]
      simp only [List.mem_cons, ih]
      tauto

theorem mem_insertionSort (x : Nat) :
    ∀ l, x ∈ insertionSort l ↔ x ∈ l := by
  intro l
  induction l with
  | nil => simp [insertionSort]
  | cons a as ih =>
    unfold insertionSort
    rw [mem_sortedInsert]
    simp [ih]

theorem mem_dedupConsec (x : Nat) : ∀ l, x ∈ dedupConsec l ↔ x ∈ l := by
  intro l
  induction l with
  | nil => simp [dedupConsec]
  | cons a rest ih =>
    cases rest with
    | nil => simp [dedupConsec]
    | cons b rest' =>
      unfold dedupConsec
      by_cases hab : a = b
      · rw [if_pos hab, ih]
        subst hab
        simp only [List.mem_cons]
        tauto
      · rw [if_neg hab]
        simp only [List.mem_cons, ih]

/-! ## Results of the cached predicates, and observational equivalence

Each cached predicate's *result* on a given state is its cache bit or-ed
with the cache-free recomputation; the query additionally stores a bit that
its own scan has just justified.  Consequently a query never changes the
result of any later query — `ObsEq` captures this and lets the scanning
functions (`colors`, `min_colors`, `solve_simple`) be reasoned about. -/

/-- Result of `has_triangles` on a state. -/
def htRes (g : Graph) : Bool := g.cache_has_triangles || htCore g

/-- Result of `is_upper_right_disconnected` on a state. -/
def upperRes (g : Graph) : Bool :=
  g.cache_upper_triangle_disconnected || upperCore g

/-- Result of `commute_quad_satisfied b` on a state. -/
def commuteRes (g : Graph) (b : Bool) : Bool :=
  g.cache_commute_quad_satisfied || commuteCore g b

/-- Result of `is_connected` on a state. -/
def connRes (g : Graph) : Bool := g.cache_connected || connCore g

/-- Result of `node_satisfied i` on a state. -/
def nodeRes (g : Graph) (i : Nat) : List Constraint :=
  if g.cache_node_satisfied.getD i false then [] else nodeSatRes g i

theorem has_triangles_eq_cache (g : Graph) (hc : g.cache_has_triangles = true) :
    g.has_triangles = (true, g) := by
  unfold Graph.has_triangles
  rw [if_pos hc]

theorem has_triangles_eq_found (g : Graph)
    (hc : g.cache_has_triangles = false) (hcore : htCore g = true) :
    g.has_triangles = (true, { g with cache_has_triangles := true }) := by
  unfold Graph.has_triangles
  rw [if_neg (by rw [hc]; exact Bool.false_ne_true), if_pos hcore]

theorem has_triangles_eq_none (g : Graph)
    (hc : g.cache_has_triangles = false) (hcore : htCore g = false) :
    g.has_triangles = (false, g) := by
  unfold Graph.has_triangles
  rw [if_neg (by rw [hc]; exact Bool.false_ne_true),
    if_neg (by rw [hcore]; exact Bool.false_ne_true)]

theorem upper_eq_cache (g : Graph)
    (hc : g.cache_upper_triangle_disconnected = true) :
    g.is_upper_right_disconnected = (true, g) := by
  unfold Graph.is_upper_right_disconnected
  rw [if_pos hc]

theorem upper_eq_found (g : Graph)
    (hc : g.cache_upper_triangle_disconnected = false)
    (hcore : upperCore g = true) :
    g.is_upper_right_disconnected =
      (true, { g with cache_upper_triangle_disconnected := true }) := by
  unfold Graph.is_upper_right_disconnected
  rw [if_neg (by rw [hc]; exact Bool.false_ne_true), if_pos hcore]

theorem upper_eq_none (g : Graph)
    (hc : g.cache_upper_triangle_disconnected = false)
    (hcore : upperCore g = false) :
    g.is_upper_right_disconnected = (false, g) := by
  unfold Graph.is_upper_right_disconnected
  rw [if_neg (by rw [hc]; exact Bool.false_ne_true),
    if_neg (by rw [hcore]; exact Bool.false_ne_true)]

theorem commute_eq_cache (g : Graph) (b : Bool)
    (hc : g.cache_commute_quad_satisfied = true) :
    g.commute_quad_satisfied b = (true, g) := by
  unfold Graph.commute_quad_satisfied
  rw [if_pos hc]

theorem commute_eq_found (g : Graph) (b : Bool)
    (hc : g.cache_commute_quad_satisfied = false)
    (hcore : commuteCore g b = true) :
    g.commute_quad_satisfied b =
      (true, { g with cache_commute_quad_satisfied := true }) := by
  unfold Graph.commute_quad_satisfied
  rw [if_neg (by rw [hc]; exact Bool.false_ne_true), if_pos hcore]

theorem commute_eq_none (g : Graph) (b : Bool)
    (hc : g.cache_commute_quad_satisfied = false)
    (hcore : commuteCore g b = false) :
    g.commute_quad_satisfied b = (false, g) := by
  unfold Graph.commute_quad_satisfied
  rw [if_neg (by rw [hc]; exact Bool.false_ne_true),
    if_neg (by rw [hcore]; exact Bool.false_ne_true)]

theorem node_satisfied_eq_cache (g : Graph) (i : Nat)
    (hc : g.cache_node_satisfied.getD i false = true) :
    g.node_satisfied i = ([], g) := by
  unfold Graph.node_satisfied
  rw [if_pos hc]

theorem node_satisfied_eq_sat (g : Graph) (i : Nat)
    (hc : g.cache_node_satisfied.getD i false = false)
    (hres : nodeSatRes g i = []) :
    g.node_satisfied i =
      ([], { g with cache_node_satisfied :=
        g.cache_node_satisfied.set i true }) := by
  unfold Graph.node_satisfied
  rw [if_neg (by rw [hc]; exact Bool.false_ne_true)]
  show (nodeSatRes g i,
    if nodeSatRes g i = [] then
      { g with cache_node_satisfied := g.cache_node_satisfied.set i true }
    else g) = _
  rw [if_pos hres, hres]

theorem node_satisfied_eq_unsat (g : Graph) (i : Nat)
    (hc : g.cache_node_satisfied.getD i false = false)
    (hres : ¬nodeSatRes g i = []) :
    g.node_satisfied i = (nodeSatRes g i, g) := by
  unfold Graph.node_satisfied
  rw [if_neg (by rw [hc]; exact Bool.false_ne_true)]
  show (nodeSatRes g i,
    if nodeSatRes g i = [] then
      { g with cache_node_satisfied := g.cache_node_satisfied.set i true }
    else g) = _
  rw [if_neg hres]

theorem has_triangles_fst (g : Graph) : (g.has_triangles).1 = htRes g := by
  unfold htRes
  cases hc : g.cache_has_triangles with
  | true => rw [has_triangles_eq_cache g hc]; rfl
  | false =>
    cases hcore : htCore g with
    | true => rw [has_triangles_eq_found g hc hcore]; rfl
    | false => rw [has_triangles_eq_none g hc hcore]; rfl

theorem upper_fst (g : Graph) :
    (g.is_upper_right_disconnected).1 = upperRes g := by
  unfold upperRes
  cases hc : g.cache_upper_triangle_disconnected with
  | true => rw [upper_eq_cache g hc]; rfl
  | false =>
    cases hcore : upperCore g with
    | true => rw [upper_eq_found g hc hcore]; rfl
    | false => rw [upper_eq_none g hc hcore]; rfl

theorem commute_fst (g : Graph) (b : Bool) :
    (g.commute_quad_satisfied b).1 = commuteRes g b := by
  unfold commuteRes
  cases hc : g.cache_commute_quad_satisfied with
  | true => rw [commute_eq_cache g b hc]; rfl
  | false =>
    cases hcore : commuteCore g b with
    | true => rw [commute_eq_found g b hc hcore]; rfl
    | false => rw [commute_eq_none g b hc hcore]; rfl

theorem node_satisfied_res (g : Graph) (i : Nat) :
    (g.node_satisfied i).1 = nodeRes g i := by
  unfold nodeRes
  cases hc : g.cache_node_satisfied.getD i false with
  | true => rw [node_satisfied_eq_cache g i hc, if_pos rfl]
  | false =>
    rw [if_neg (by exact Bool.false_ne_true)]
    by_cases hres : nodeSatRes g i = []
    · rw [node_satisfied_eq_sat g i hc hres, hres]
    · rw [node_satisfied_eq_unsat g i hc hres]

theorem connPass_congr (g h : Graph) (hn : h.nodes = g.nodes)
    (he : h.edges = g.edges) : connPass h = connPass g := by
  funext r0
  unfold connPass Graph.get
  simp only [hn, he]

theorem connIter_congr (g h : Graph) (hn : h.nodes = g.nodes)
    (he : h.edges = g.edges) :
    ∀ fuel r, connIter h fuel r = connIter g fuel r := by
  intro fuel
  induction fuel with
  | zero => intro r; rfl
  | succ n ih =>
    intro r
    show connIter h n (connPass h r) = connIter g n (connPass g r)
    rw [connPass_congr g h hn he, ih]

theorem connCore_congr (g h : Graph) (hn : h.nodes = g.nodes)
    (he : h.edges = g.edges) : connCore h = connCore g := by
  unfold connCore connInit Graph.get
  rw [connIter_congr g h hn he]
  simp only [hn, he]

theorem connRes_cache_irrel (g h : Graph) (hn : h.nodes = g.nodes)
    (he : h.edges = g.edges) (hcc : h.cache_connected = g.cache_connected) :
    connRes h = connRes g := by
  unfold connRes
  rw [hcc, connCore_congr g h hn he]

/-- Observational equivalence: same structure and flags, and the same
result for every cached query a scan can issue.  The commute-quad result is
only tracked at the argument the `commute_quad` flag prescribes, because
that is the argument every query issued by `colors` uses (the cache cell is
argument-blind, so preservation at other arguments genuinely fails). -/
def ObsEq (g h : Graph) : Prop :=
  h.nodes = g.nodes ∧ h.edges = g.edges ∧
  h.no_triangles = g.no_triangles ∧ h.connected = g.connected ∧
  h.commute_quad = g.commute_quad ∧
  htRes h = htRes g ∧ upperRes h = upperRes g ∧
  (∀ b, g.commute_quad = some b → commuteRes h b = commuteRes g b) ∧
  connRes h = connRes g ∧
  (∀ i, nodeRes h i = nodeRes g i)

theorem obsEq_rfl (g : Graph) : ObsEq g g :=
  ⟨rfl, rfl, rfl, rfl, rfl, rfl, rfl, fun _ _ => rfl, rfl, fun _ => rfl⟩

theorem obsEq_trans {g h k : Graph} (h1 : ObsEq g h) (h2 : ObsEq h k) :
    ObsEq g k := by
  obtain ⟨a1, a2, a3, a4, a5, a6, a7, a8, a9, a10⟩ := h1
  obtain ⟨b1, b2, b3, b4, b5, b6, b7, b8, b9, b10⟩ := h2
  refine ⟨b1.trans a1, b2.trans a2, b3.trans a3, b4.trans a4, b5.trans a5,
    b6.trans a6, b7.trans a7, fun b hb => ?_, b9.trans a9,
    fun i => (b10 i).trans (a10 i)⟩
  exact (b8 b (a5.trans hb)).trans (a8 b hb)

theorem obsEq_has_triangles (g : Graph) : ObsEq g (g.has_triangles).2 := by
  cases hc : g.cache_has_triangles with
  | true => rw [has_triangles_eq_cache g hc]; exact obsEq_rfl g
  | false =>
    cases hcore : htCore g with
    | false => rw [has_triangles_eq_none g hc hcore]; exact obsEq_rfl g
    | true =>
      rw [has_triangles_eq_found g hc hcore]
      show ObsEq g { g with cache_has_triangles := true }
      refine ⟨rfl, rfl, rfl, rfl, rfl, ?_, rfl, fun b hb => rfl,
        connRes_cache_irrel g _ rfl rfl rfl, fun i => rfl⟩
      show (true || htCore g) = (g.cache_has_triangles || htCore g)
      rw [hcore, hc]
      rfl

theorem obsEq_upper (g : Graph) :
    ObsEq g (g.is_upper_right_disconnected).2 := by
  cases hc : g.cache_upper_triangle_disconnected with
  | true => rw [upper_eq_cache g hc]; exact obsEq_rfl g
  | false =>
    cases hcore : upperCore g with
    | false => rw [upper_eq_none g hc hcore]; exact obsEq_rfl g
    | true =>
      rw [upper_eq_found g hc hcore]
      show ObsEq g { g with cache_upper_triangle_disconnected := true }
      refine ⟨rfl, rfl, rfl, rfl, rfl, rfl, ?_, fun b hb => rfl,
        connRes_cache_irrel g _ rfl rfl rfl, fun i => rfl⟩
      show (true || upperCore g) =
        (g.cache_upper_triangle_disconnected || upperCore g)
      rw [hcore, hc]
      rfl

/-- The commute query issued with the argument the flag prescribes
preserves every tracked observation. -/
theorem obsEq_commute_flag (g : Graph) (b : Bool)
    (hflag : g.commute_quad = some b) :
    ObsEq g (g.commute_quad_satisfied b).2 := by
  cases hc : g.cache_commute_quad_satisfied with
  | true => rw [commute_eq_cache g b hc]; exact obsEq_rfl g
  | false =>
    cases hcore : commuteCore g b with
    | false => rw [commute_eq_none g b hc hcore]; exact obsEq_rfl g
    | true =>
      rw [commute_eq_found g b hc hcore]
      show ObsEq g { g with cache_commute_quad_satisfied := true }
      refine ⟨rfl, rfl, rfl, rfl, rfl, rfl, rfl, fun b' hb' => ?_,
        connRes_cache_irrel g _ rfl rfl rfl, fun i => rfl⟩
      have hbb : b' = b := by
        rw [hflag] at hb'
        exact (Option.some_inj.mp hb').symm
      subst hbb
      show (true || commuteCore g b') =
        (g.cache_commute_quad_satisfied || commuteCore g b')
      rw [hcore, hc]
      rfl

theorem obsEq_node_satisfied (g : Graph) (i : Nat) :
    ObsEq g (g.node_satisfied i).2 := by
  cases hc : g.cache_node_satisfied.getD i false with
  | true => rw [node_satisfied_eq_cache g i hc]; exact obsEq_rfl g
  | false =>
    by_cases hres : nodeSatRes g i = []
    · rw [node_satisfied_eq_sat g i hc hres]
      show ObsEq g
        { g with cache_node_satisfied := g.cache_node_satisfied.set i true }
      refine ⟨rfl, rfl, rfl, rfl, rfl, rfl, rfl, fun b hb => rfl,
        connRes_cache_irrel g _ rfl rfl rfl, fun k => ?_⟩
      show (if (g.cache_node_satisfied.set i true).getD k false then []
        else nodeSatRes g k) = nodeRes g k
      unfold nodeRes
      by_cases hki : k = i
      · subst hki
        by_cases hk : k < g.cache_node_satisfied.length
        · rw [getD_set_self hk, if_pos rfl, hc,
            if_neg (by exact Bool.false_ne_true), hres]
        · rw [List.set_eq_of_length_le (Nat.le_of_not_lt hk)]
      · rw [getD_set_ne (fun h => hki h.symm)]
    · rw [node_satisfied_eq_unsat g i hc hres]; exact obsEq_rfl g

/-! ## Candidate enumeration (`Graph::colors`, lines 546–570) -/

/-- The `if self.no_triangles && self.has_triangles()` guard: the query runs
only when the flag is set (Rust short-circuit). -/
def htStage (g : Graph) : Bool × Graph :=
  if g.no_triangles then g.has_triangles else (false, g)

/-- The `if self.connected && self.is_upper_right_disconnected()` guard. -/
def connStage (g : Graph) : Bool × Graph :=
  if g.connected then g.is_upper_right_disconnected else (false, g)

/-- The `if let Some(val) = self.commute_quad { … }` guard: prune when the
query with the flag's value fails. -/
def commStage (g : Graph) : Bool × Graph :=
  match g.commute_quad with
  | some val =>
    (!(g.commute_quad_satisfied val).1, (g.commute_quad_satisfied val).2)
  | none => (false, g)

/-- The `for err in &errors { … }` accumulation loop of `colors`
(lines 555–565): keep the edge color of every unmet constraint of `i`
aimed at `j`'s color that is mirrored by an unmet constraint of `j` aimed
at `i`'s color. -/
def colorsLoop (g : Graph) (i j : Nat)
    (errors other_errors : List Constraint) : List Nat :=
  errors.foldl
    (fun acc err =>
      if err.node ≠ colorOf g j then acc
      else if other_errors.any fun oe =>
          decide (oe.edge = err.edge) && decide (oe.node = colorOf g i) then
        acc ++ [err.edge]
      else acc) []

/-- The tail of `colors` after all guards passed: the two `node_satisfied`
queries (in source order, the second on the state the first left behind),
the accumulation loop, `push(1)`, `sort`, `dedup`. -/
def colorsTail (g : Graph) (p : Nat × Nat) : List Nat × Graph :=
  (dedupConsec (insertionSort
    (colorsLoop ((g.node_satisfied p.1).2.node_satisfied p.2).2 p.1 p.2
      (g.node_satisfied p.1).1
      ((g.node_satisfied p.1).2.node_satisfied p.2).1 ++ [1])),
   ((g.node_satisfied p.1).2.node_satisfied p.2).2)

/-- `Graph::colors(p)`: result list and updated cache state. -/
def Graph.colors (g : Graph) (p : Nat × Nat) : List Nat × Graph :=
  if g.get (p.1, p.2) ≠ 0 then ([], g)
  else if ¬(g.nodes.getD p.1 dNode).self_connected ∧ p.1 = p.2 then ([], g)
  else if (htStage g).1 then ([], (htStage g).2)
  else if (connStage (htStage g).2).1 then ([], (connStage (htStage g).2).2)
  else if (commStage (connStage (htStage g).2).2).1 then
    ([], (commStage (connStage (htStage g).2).2).2)
  else colorsTail (commStage (connStage (htStage g).2).2).2 p

/-- The result of `colors` as a pure function of the queried state. -/
def colorsRes (g : Graph) (p : Nat × Nat) : List Nat :=
  if g.get (p.1, p.2) ≠ 0 then []
  else if ¬(g.nodes.getD p.1 dNode).self_connected ∧ p.1 = p.2 then []
  else if g.no_triangles && htRes g then []
  else if g.connected && upperRes g then []
  else if (match g.commute_quad with
    | some val => !(commuteRes g val)
    | none => false) then []
  else
    dedupConsec (insertionSort
      (colorsLoop g p.1 p.2 (nodeRes g p.1) (nodeRes g p.2) ++ [1]))

theorem htStage_fst (g : Graph) :
    (htStage g).1 = (g.no_triangles && htRes g) := by
  unfold htStage
  cases hf : g.no_triangles with
  | false => rw [if_neg Bool.false_ne_true]; rfl
  | true => rw [if_pos rfl, has_triangles_fst, Bool.true_and]

theorem htStage_obs (g : Graph) : ObsEq g (htStage g).2 := by
  unfold htStage
  cases hf : g.no_triangles with
  | false => rw [if_neg Bool.false_ne_true]; exact obsEq_rfl g
  | true => rw [if_pos rfl]; exact obsEq_has_triangles g

theorem connStage_fst (g : Graph) :
    (connStage g).1 = (g.connected && upperRes g) := by
  unfold connStage
  cases hf : g.connected with
  | false => rw [if_neg Bool.false_ne_true]; rfl
  | true => rw [if_pos rfl, upper_fst, Bool.true_and]

theorem connStage_obs (g : Graph) : ObsEq g (connStage g).2 := by
  unfold connStage
  cases hf : g.connected with
  | false => rw [if_neg Bool.false_ne_true]; exact obsEq_rfl g
  | true => rw [if_pos rfl]; exact obsEq_upper g

theorem commStage_fst (g : Graph) :
    (commStage g).1 = (match g.commute_quad with
      | some val => !(commuteRes g val)
      | none => false) := by
  unfold commStage
  cases hq : g.commute_quad with
  | none => rfl
  | some val =>
    show (!(g.commute_quad_satisfied val).1) = !(commuteRes g val)
    rw [commute_fst]

theorem commStage_obs (g : Graph) : ObsEq g (commStage g).2 := by
  unfold commStage
  cases hq : g.commute_quad with
  | none => exact obsEq_rfl g
  | some val =>
    show ObsEq g (g.commute_quad_satisfied val).2
    exact obsEq_commute_flag g val hq

theorem colorsLoop_congr (g h : Graph) (hn : h.nodes = g.nodes)
    (i j : Nat) (E F : List Constraint) :
    colorsLoop h i j E F = colorsLoop g i j E F := by
  unfold colorsLoop colorOf
  simp only [hn]

theorem colorsTail_fst (g G : Graph) (p : Nat × Nat) (ob : ObsEq g G) :
    (colorsTail G p).1 = dedupConsec (insertionSort
      (colorsLoop g p.1 p.2 (nodeRes g p.1) (nodeRes g p.2) ++ [1])) := by
  have obG1 : ObsEq g (G.node_satisfied p.1).2 :=
    obsEq_trans ob (obsEq_node_satisfied G p.1)
  have obG2 : ObsEq g ((G.node_satisfied p.1).2.node_satisfied p.2).2 :=
    obsEq_trans obG1 (obsEq_node_satisfied _ p.2)
  have hE1 : (G.node_satisfied p.1).1 = nodeRes g p.1 := by
    rw [node_satisfied_res]
    exact ob.2.2.2.2.2.2.2.2.2 p.1
  have hE2 : ((G.node_satisfied p.1).2.node_satisfied p.2).1 =
      nodeRes g p.2 := by
    rw [node_satisfied_res]
    exact obG1.2.2.2.2.2.2.2.2.2 p.2
  unfold colorsTail
  rw [hE1, hE2, colorsLoop_congr g _ obG2.1]

theorem colorsTail_obs (g G : Graph) (p : Nat × Nat) (ob : ObsEq g G) :
    ObsEq g (colorsTail G p).2 := by
  unfold colorsTail
  exact obsEq_trans (obsEq_trans ob (obsEq_node_satisfied G p.1))
    (obsEq_node_satisfied _ p.2)

theorem colors_fst (g : Graph) (p : Nat × Nat) :
    (g.colors p).1 = colorsRes g p := by
  unfold Graph.colors colorsRes
  by_cases h0 : g.get (p.1, p.2) ≠ 0
  · rw [if_pos h0, if_pos h0]
  · rw [if_neg h0, if_neg h0]
    by_cases h1 : ¬(g.nodes.getD p.1 dNode).self_connected ∧ p.1 = p.2
    · rw [if_pos h1, if_pos h1]
    · rw [if_neg h1, if_neg h1, htStage_fst]
      by_cases h2 : (g.no_triangles && htRes g) = true
      · rw [if_pos h2, if_pos h2]
      · rw [if_neg h2, if_neg h2]
        have ob1 := htStage_obs g
        have e2 : (connStage (htStage g).2).1 = (g.connected && upperRes g) := by
          rw [connStage_fst, ob1.2.2.2.1, ob1.2.2.2.2.2.2.1]
        rw [e2]
        by_cases h3 : (g.connected && upperRes g) = true
        · rw [if_pos h3, if_pos h3]
        · rw [if_neg h3, if_neg h3]
          have ob2 : ObsEq g (connStage (htStage g).2).2 :=
            obsEq_trans ob1 (connStage_obs _)
          have e3 : (commStage (connStage (htStage g).2).2).1 =
              (match g.commute_quad with
                | some val => !(commuteRes g val)
                | none => false) := by
            rw [commStage_fst, ob2.2.2.2.2.1]
            cases hq : g.commute_quad with
            | none => rfl
            | some val =>
              show (!(commuteRes (connStage (htStage g).2).2 val)) =
                !(commuteRes g val)
              rw [ob2.2.2.2.2.2.2.2.1 val hq]
          rw [e3]
          by_cases h4 : (match g.commute_quad with
              | some val => !(commuteRes g val)
              | none => false) = true
          · rw [if_pos h4, if_pos h4]
          · rw [if_neg h4, if_neg h4]
            have ob3 : ObsEq g (commStage (connStage (htStage g).2).2).2 :=
              obsEq_trans ob2 (commStage_obs _)
            exact colorsTail_fst g _ p ob3

theorem obsEq_colors (g : Graph) (p : Nat × Nat) :
    ObsEq g (g.colors p).2 := by
  unfold Graph.colors
  by_cases h0 : g.get (p.1, p.2) ≠ 0
  · rw [if_pos h0]; exact obsEq_rfl g
  · rw [if_neg h0]
    by_cases h1 : ¬(g.nodes.getD p.1 dNode).self_connected ∧ p.1 = p.2
    · rw [if_pos h1]; exact obsEq_rfl g
    · rw [if_neg h1]
      have ob1 := htStage_obs g
      have ob2 : ObsEq g (connStage (htStage g).2).2 :=
        obsEq_trans ob1 (connStage_obs _)
      have ob3 : ObsEq g (commStage (connStage (htStage g).2).2).2 :=
        obsEq_trans ob2 (commStage_obs _)
      by_cases h2 : (htStage g).1 = true
      · rw [if_pos h2]; exact ob1
      · rw [if_neg h2]
        by_cases h3 : (connStage (htStage g).2).1 = true
        · rw [if_pos h3]; exact ob2
        · rw [if_neg h3]
          by_cases h4 : (commStage (connStage (htStage g).2).2).1 = true
          · rw [if_pos h4]; exact ob3
          · rw [if_neg h4]
            exact colorsTail_obs g _ p ob3

/-- Results of `colors` agree across observationally equivalent states —
the cache writes a scan performs never change a later candidate set. -/
theorem colorsRes_congr (g h : Graph) (ob : ObsEq g h) (p : Nat × Nat) :
    colorsRes h p = colorsRes g p := by
  obtain ⟨hn, he, hf1, hf2, hf3, r1, r2, r3, r4, r5⟩ := ob
  have hget : h.get (p.1, p.2) = g.get (p.1, p.2) := by
    unfold Graph.get
    rw [he]
  have hmatch : (match g.commute_quad with
      | some v => !(commuteRes h v)
      | none => false) = (match g.commute_quad with
      | some v => !(commuteRes g v)
      | none => false) := by
    cases hq : g.commute_quad with
    | none => rfl
    | some val =>
      show (!(commuteRes h val)) = !(commuteRes g val)
      rw [r3 val hq]
  unfold colorsRes
  rw [hget, hn, hf1, r1, hf2, r2, hf3, hmatch, r5 p.1, r5 p.2,
    colorsLoop_congr g h hn]

/-! ## Claim C10: set/get frame and symmetry -/

/-- Claim C10: after `set((i,j), v)` on valid indices, `get` returns `v`
for the pair in either order, every other unordered pair is unchanged, and
`get` is symmetric on every state. -/
theorem set_get_frame_and_symmetry (g : Graph) (hWF : EdgesWF g) (i j v : Nat)
    (hi : i < g.nodes.length) (hj : j < g.nodes.length) :
    (g.set (i, j) v).get (i, j) = v ∧ (g.set (i, j) v).get (j, i) = v ∧
    (∀ k l, ¬(k = i ∧ l = j) → ¬(k = j ∧ l = i) →
      (g.set (i, j) v).get (k, l) = g.get (k, l)) ∧
    (∀ h : Graph, ∀ k l, h.get (k, l) = h.get (l, k)) := by
  refine ⟨get_set_self g hWF i j v hi hj, ?_,
    fun k l h1 h2 => get_set_other g i j v k l h1 h2,
    fun h k l => get_symm h k l⟩
  rw [get_symm]
  exact get_set_self g hWF i j v hi hj

/-- A plain two-node graph (empty templates, no flags). -/
def gTwoNodes : Graph := (Graph.new.push ⟨0, false, []⟩).push ⟨0, false, []⟩

/-- Witness for `set_get_frame_and_symmetry` at a concrete graph. -/
theorem set_get_frame_and_symmetry_witness :
    EdgesWF gTwoNodes ∧ 0 < gTwoNodes.nodes.length ∧
    1 < gTwoNodes.nodes.length ∧
    ((gTwoNodes.set (0, 1) 7).get (0, 1) = 7 ∧
     (gTwoNodes.set (0, 1) 7).get (1, 0) = 7 ∧
     (∀ k l, ¬(k = 0 ∧ l = 1) → ¬(k = 1 ∧ l = 0) →
       (gTwoNodes.set (0, 1) 7).get (k, l) = gTwoNodes.get (k, l)) ∧
     (∀ h : Graph, ∀ k l, h.get (k, l) = h.get (l, k))) :=
  ⟨by decide, by decide, by decide,
    set_get_frame_and_symmetry gTwoNodes (by decide) 0 1 7 (by decide)
      (by decide)⟩

/-! ## Claim C5: color 1 among the candidates -/

/-- Claim C5 (amended): `colors((i,j))` contains color `1` whenever the
position is undecided *and* none of the early pruning guards fires: the
diagonal guard (`i = j` with a non-self-connectable node), the triangle
guard, the upper-right-disconnection guard, and the commute-quad guard.
The claim as stated omits the guards. -/
theorem colors_contains_one (g : Graph) (p : Nat × Nat)
    (h0 : g.get (p.1, p.2) = 0)
    (h1 : p.1 = p.2 → (g.nodes.getD p.1 dNode).self_connected = true)
    (h2 : (g.no_triangles && htRes g) = false)
    (h3 : (g.connected && upperRes g) = false)
    (h4 : (match g.commute_quad with
      | some val => !(commuteRes g val)
      | none => false) = false) :
    1 ∈ (g.colors p).1 := by
  rw [colors_fst]
  unfold colorsRes
  rw [if_neg (fun hne => hne h0)]
  rw [if_neg (fun hg => hg.1 (h1 hg.2))]
  rw [if_neg (by rw [h2]; exact Bool.false_ne_true)]
  rw [if_neg (by rw [h3]; exact Bool.false_ne_true)]
  rw [if_neg (by rw [h4]; exact Bool.false_ne_true)]
  rw [mem_dedupConsec, mem_insertionSort, List.mem_append]
  right
  exact List.mem_singleton.mpr rfl

/-- Witness for `colors_contains_one` at a concrete graph. -/
theorem colors_contains_one_witness :
    gTwoNodes.get (0, 1) = 0 ∧ 1 ∈ (gTwoNodes.colors (0, 1)).1 :=
  ⟨by decide, colors_contains_one gTwoNodes (0, 1) (by decide) (by decide)
    (by decide) (by decide) (by decide)⟩

/-- A single node that must not be self-connected. -/
def gC5 : Graph := Graph.new.push ⟨0, false, []⟩

/-- Counterexample to claim C5 as stated: the diagonal position `(0,0)` is
undecided (`get = 0`), yet `colors((0,0))` is empty — color `1` is *not*
offered — because the node is not self-connectable. -/
theorem colors_empty_on_non_self_connected_diagonal :
    gC5.get (0, 0) = 0 ∧ (gC5.colors (0, 0)).1 = [] := by decide

/-! ## Claim C6: color 0 among the candidates -/

/-- Every element the accumulation loop of `colors` adds is the edge color
of some unmet constraint of node `i`. -/
theorem colorsLoop_subset (g : Graph) (i j x : Nat) :
    ∀ (E : List Constraint) (F : List Constraint) (acc : List Nat),
    x ∈ (E.foldl
      (fun acc err =>
        if err.node ≠ colorOf g j then acc
        else if F.any fun oe =>
            decide (oe.edge = err.edge) && decide (oe.node = colorOf g i) then
          acc ++ [err.edge]
        else acc) acc) →
    x ∈ acc ∨ ∃ e ∈ E, x = e.edge := by
  intro E
  induction E with
  | nil => intro F acc h; exact Or.inl h
  | cons err E ih =>
    intro F acc h
    rw [List.foldl_cons] at h
    by_cases hn : err.node ≠ colorOf g j
    · rw [if_pos hn] at h
      rcases ih F acc h with h' | ⟨e, he, hx⟩
      · exact Or.inl h'
      · exact Or.inr ⟨e, List.mem_cons_of_mem _ he, hx⟩
    · rw [if_neg hn] at h
      by_cases ha : (F.any fun oe =>
          decide (oe.edge = err.edge) &&
            decide (oe.node = colorOf g i)) = true
      · rw [if_pos ha] at h
        rcases ih F (acc ++ [err.edge]) h with h' | ⟨e, he, hx⟩
        · rcases List.mem_append.mp h' with h'' | h''
          · exact Or.inl h''
          · exact Or.inr ⟨err, List.mem_cons_self _ _,
              (List.mem_singleton.mp h'')⟩
        · exact Or.inr ⟨e, List.mem_cons_of_mem _ he, hx⟩
      · rw [if_neg ha] at h
        rcases ih F acc h with h' | ⟨e, he, hx⟩
        · exact Or.inl h'
        · exact Or.inr ⟨e, List.mem_cons_of_mem _ he, hx⟩

theorem unmatched_subset (T : List Constraint) :
    ∀ (m : List Bool) (x : Constraint), x ∈ unmatched T m → x ∈ T := by
  induction T with
  | nil => intro m x h; exact absurd h (by simp [unmatched])
  | cons t ts ih =>
    intro m x h
    cases m with
    | nil => exact absurd h (by simp [unmatched])
    | cons b bs =>
      unfold unmatched at h
      cases b with
      | true =>
        rw [if_pos rfl] at h
        exact List.mem_cons_of_mem _ (ih bs x h)
      | false =>
        rw [if_neg Bool.false_ne_true] at h
        rcases List.mem_cons.mp h with h' | h'
        · exact h' ▸ List.mem_cons_self _ _
        · exact List.mem_cons_of_mem _ (ih bs x h')

theorem nodeRes_subset (g : Graph) (i : Nat) (x : Constraint)
    (h : x ∈ nodeRes g i) : x ∈ tmplOf g i := by
  unfold nodeRes at h
  by_cases hc : g.cache_node_satisfied.getD i false = true
  · rw [if_pos hc] at h
    exact absurd h (by simp)
  · rw [if_neg hc] at h
    exact unmatched_subset _ _ _ h

/-- Claim C6 (amended): `colors((i,j))` never contains `0` provided no
template constraint of node `i` carries edge color `0`.  (A template
constraint `{edge: 0, …}` can never be matched, stays among the unmet
constraints, and the loop then offers its color `0`, so the proviso is
necessary.) -/
theorem colors_no_zero (g : Graph) (p : Nat × Nat)
    (h : ∀ c ∈ tmplOf g p.1, c.edge ≠ 0) :
    0 ∉ (g.colors p).1 := by
  rw [colors_fst]
  unfold colorsRes
  by_cases h0 : g.get (p.1, p.2) ≠ 0
  · rw [if_pos h0]; simp
  · rw [if_neg h0]
    by_cases h1 : ¬(g.nodes.getD p.1 dNode).self_connected = true ∧ p.1 = p.2
    · rw [if_pos h1]; simp
    · rw [if_neg h1]
      by_cases h2 : (g.no_triangles && htRes g) = true
      · rw [if_pos h2]; simp
      · rw [if_neg h2]
        by_cases h3 : (g.connected && upperRes g) = true
        · rw [if_pos h3]; simp
        · rw [if_neg h3]
          by_cases h4 : (match g.commute_quad with
              | some val => !(commuteRes g val)
              | none => false) = true
          · rw [if_pos h4]; simp
          · rw [if_neg h4]
            intro hmem
            rw [mem_dedupConsec, mem_insertionSort, List.mem_append] at hmem
            rcases hmem with hmem | hmem
            · unfold colorsLoop at hmem
              rcases colorsLoop_subset g p.1 p.2 0 (nodeRes g p.1)
                  (nodeRes g p.2) [] hmem with h' | ⟨e, he, hx⟩
              · exact absurd h' (by simp)
              · exact h e (nodeRes_subset g p.1 e he) hx.symm
            · exact absurd (List.mem_singleton.mp hmem) (by decide)

/-- Witness for `colors_no_zero` at a concrete graph. -/
theorem colors_no_zero_witness :
    (∀ c ∈ tmplOf gTwoNodes 0, c.edge ≠ 0) ∧
    0 ∉ (gTwoNodes.colors (0, 1)).1 :=
  ⟨by decide, colors_no_zero gTwoNodes (0, 1) (by decide)⟩

/-- Two nodes whose templates carry a constraint with edge color `0`. -/
def gC6 : Graph :=
  (Graph.new.push ⟨0, false, [⟨0, 0⟩]⟩).push ⟨0, false, [⟨0, 0⟩]⟩

/-- Counterexample to claim C6 as stated: with templates containing the
(degenerate) constraint `{edge: 0, node: 0}`, the undecided pair `(0,1)`
gets candidate list `[0, 1]` — the color `0` is offered. -/
theorem colors_returns_zero_with_zero_template :
    (gC6.colors (0, 1)).1 = [0, 1] := by decide

/-! ## Claim C1: anticommute check on pairs (2,3)/(4,4) -/

/-- The 4-cycle `0-1-2-3-0` with edge colors `2, 4, 3, 4`: its opposite
edge pairs are `(2,3)` and `(4,4)`. -/
def gC1 : Graph :=
  (((((Graph.new.push ⟨0, false, []⟩).push ⟨0, false, []⟩).push
    ⟨0, false, []⟩).push ⟨0, false, []⟩).set (0, 1) 2 |>.set (1, 2) 4
    |>.set (2, 3) 3 |>.set (0, 3) 4)

/-- Counterexample to claim C1: this graph contains a 4-cycle with opposite
pairs `(2,3)` and `(4,4)` made of concrete edges, and
`commute_quad_satisfied(false)` returns `true`, not `false`. -/
theorem anticommute_2344_quad_accepted :
    gC1.get (0, 1) = 2 ∧ gC1.get (1, 2) = 4 ∧ gC1.get (2, 3) = 3 ∧
    gC1.get (0, 3) = 4 ∧ gC1.cache_commute_quad_satisfied = false ∧
    (gC1.commute_quad_satisfied false).1 = true := by decide

/-- Claim C1 (amended): for the opposite pairs `(2,3)` and `(4,4)` the pair
`(2,3)` is a sign flip and `(4,4)` is not, so the cycle has exactly one
sign flip, the per-quad anticommute formula accepts it (in both
orientations), and `commute_quad_satisfied(false)` on the 4-cycle graph
returns `true`. -/
theorem anticommute_2344_satisfies_check :
    antiS 2 4 3 4 = true ∧ antiS 4 2 4 3 = true ∧
    commuteCore gC1 false = true := by decide

/-! ## Claim C7: connectivity of a one-node graph -/

/-- A single node, no edges. -/
def gC7 : Graph := Graph.new.push ⟨0, false, []⟩

/-- Modelled from the claim's description of `is_connected`: the same
closure sweeps, but seeded with node `0` itself marked reached (BFS from
node `0` trivially reaches its start). -/
def connSpecInit (g : Graph) : List Bool :=
  (List.range g.nodes.length).map fun i =>
    decide (i = 0) || decide (2 ≤ g.get (0, i))

/-- Connectivity as claim C7 words it. -/
def connSpec (g : Graph) : Bool :=
  (connIter g (g.nodes.length + 1) (connSpecInit g)).all fun b => b

/-- Claim C7 is contradicted by the code on the one-node graph: the seeding
loop marks a node only through a concrete edge to node `0`, so node `0`
itself stays unreached and `is_connected()` returns `false`, while the
claim (and the function's own doc) require `true`. -/
theorem is_connected_false_on_single_node :
    (gC7.is_connected).1 = false ∧ connSpec gC7 = true ∧
    gC7.nodes.length = 1 := by decide

/-! ## Claim C8: the variable selector `min_colors` (lines 283–297) -/

/-- The scan order of `min_colors` (and `fst_empty`): `i in 0..n`,
`j in i..n`, flattened in lexicographic order. -/
def upperPairs (n : Nat) : List (Nat × Nat) :=
  (List.range n).flatMap fun i => (List.range' i (n - i)).map fun j => (i, j)

/-- The update test of the `min_colors` loop:
`min.is_none() || min.unwrap().2 > s`. -/
def minAccepts (acc : Option (Nat × Nat × Nat)) (s : Nat) : Bool :=
  match acc with
  | none => true
  | some m => decide (s < m.2.2)

/-- The `min_colors` loop: accumulator `(i, j, s)` holds the current best
position and its candidate count; a position with exactly one candidate
stops the scan (`break 'outer`).  Cache state is threaded through the
`colors` calls exactly as the source's `&self` interior mutability does. -/
def minColorsAux : Option (Nat × Nat × Nat) → Graph → List (Nat × Nat) →
    Option (Nat × Nat × Nat) × Graph
  | acc, g, [] => (acc, g)
  | acc, g, p :: ps =>
    if (g.colors p).1.length = 0 then minColorsAux acc (g.colors p).2 ps
    else if minAccepts acc (g.colors p).1.length then
      if (g.colors p).1.length = 1 then
        (some (p.1, p.2, (g.colors p).1.length), (g.colors p).2)
      else
        minColorsAux (some (p.1, p.2, (g.colors p).1.length)) (g.colors p).2 ps
    else minColorsAux acc (g.colors p).2 ps

/-- `Graph::min_colors()`. -/
def Graph.min_colors (g : Graph) : Option (Nat × Nat) × Graph :=
  ((minColorsAux none g (upperPairs g.nodes.length)).1.map fun m =>
    (m.1, m.2.1),
   (minColorsAux none g (upperPairs g.nodes.length)).2)

/-- The same scan as a pure function of the initial state (justified below:
cache writes never change later candidate sets). -/
def minScanP (g : Graph) : Option (Nat × Nat × Nat) → List (Nat × Nat) →
    Option (Nat × Nat × Nat)
  | acc, [] => acc
  | acc, p :: ps =>
    if (colorsRes g p).length = 0 then minScanP g acc ps
    else if minAccepts acc (colorsRes g p).length then
      if (colorsRes g p).length = 1 then some (p.1, p.2, (colorsRes g p).length)
      else minScanP g (some (p.1, p.2, (colorsRes g p).length)) ps
    else minScanP g acc ps

theorem minColorsAux_fst (g : Graph) :
    ∀ (ps : List (Nat × Nat)) (acc : Option (Nat × Nat × Nat)) (h : Graph),
    ObsEq g h → (minColorsAux acc h ps).1 = minScanP g acc ps := by
  intro ps
  induction ps with
  | nil => intro acc h _; rfl
  | cons p ps ih =>
    intro acc h ob
    have hc : (h.colors p).1 = colorsRes g p := by
      rw [colors_fst]
      exact colorsRes_congr g h ob p
    have ob' : ObsEq g (h.colors p).2 := obsEq_trans ob (obsEq_colors h p)
    unfold minColorsAux minScanP
    rw [hc]
    by_cases hz : (colorsRes g p).length = 0
    · rw [if_pos hz, if_pos hz]
      exact ih acc _ ob'
    · rw [if_neg hz, if_neg hz]
      by_cases hadopt : minAccepts acc (colorsRes g p).length = true
      · rw [if_pos hadopt, if_pos hadopt]
        by_cases h1 : (colorsRes g p).length = 1
        · rw [if_pos h1, if_pos h1]
        · rw [if_neg h1, if_neg h1]
          exact ih _ _ ob'
      · rw [if_neg hadopt, if_neg hadopt]
        exact ih acc _ ob'

/-- Lexicographic order on positions. -/
def lexLt (a b : Nat × Nat) : Prop :=
  a.1 < b.1 ∨ (a.1 = b.1 ∧ a.2 < b.2)

theorem minScanP_none (g : Graph) :
    ∀ (ps : List (Nat × Nat)) (acc : Option (Nat × Nat × Nat)),
    minScanP g acc ps = none ↔
      (acc = none ∧ ∀ p ∈ ps, (colorsRes g p).length = 0) := by
  intro ps
  induction ps with
  | nil =>
    intro acc
    constructor
    · intro h; exact ⟨h, by simp⟩
    · intro h; exact h.1
  | cons p ps ih =>
    intro acc
    unfold minScanP
    by_cases hz : (colorsRes g p).length = 0
    · rw [if_pos hz, ih acc]
      constructor
      · rintro ⟨h1, h2⟩
        refine ⟨h1, fun q hq => ?_⟩
        rcases List.mem_cons.mp hq with hq | hq
        · rw [hq]; exact hz
        · exact h2 q hq
      · rintro ⟨h1, h2⟩
        exact ⟨h1, fun q hq => h2 q (List.mem_cons_of_mem _ hq)⟩
    · rw [if_neg hz]
      have hfalse : ¬(∀ q ∈ p :: ps, (colorsRes g q).length = 0) :=
        fun h => hz (h p (List.mem_cons_self _ _))
      by_cases hadopt : minAccepts acc (colorsRes g p).length = true
      · rw [if_pos hadopt]
        by_cases h1 : (colorsRes g p).length = 1
        · rw [if_pos h1]
          constructor
          · intro h; exact absurd h (by simp)
          · rintro ⟨_, h2⟩; exact absurd h2 hfalse
        · rw [if_neg h1, ih _]
          constructor
          · rintro ⟨h', _⟩; exact absurd h' (by simp)
          · rintro ⟨_, h2⟩; exact absurd h2 hfalse
      · rw [if_neg hadopt, ih acc]
        constructor
        · rintro ⟨h1, h2⟩
          exfalso
          rw [h1] at hadopt
          exact hadopt rfl
        · rintro ⟨_, h2⟩
          exact absurd h2 hfalse

theorem minScanP_some (g : Graph) :
    ∀ (ps : List (Nat × Nat)) (acc : Option (Nat × Nat × Nat)) (i j s : Nat),
    minScanP g acc ps = some (i, j, s) →
    (acc = some (i, j, s) ∧
      ∀ p ∈ ps, 0 < (colorsRes g p).length →
        s ≤ (colorsRes g p).length) ∨
    (∃ L₁ L₂, ps = L₁ ++ (i, j) :: L₂ ∧
      s = (colorsRes g (i, j)).length ∧ 0 < s ∧
      (∀ p ∈ L₁, (colorsRes g p).length = 0 ∨ s < (colorsRes g p).length) ∧
      (∀ m, acc = some m → s < m.2.2) ∧
      (∀ p ∈ L₂, 0 < (colorsRes g p).length →
        s ≤ (colorsRes g p).length)) := by
  intro ps
  induction ps with
  | nil =>
    intro acc i j s h
    exact Or.inl ⟨h, by simp⟩
  | cons p ps ih =>
    intro acc i j s h
    unfold minScanP at h
    by_cases hz : (colorsRes g p).length = 0
    · rw [if_pos hz] at h
      rcases ih acc i j s h with ⟨h1, h2⟩ | ⟨L₁, L₂, hps, hs, hpos, hL₁, hacc, hL₂⟩
      · refine Or.inl ⟨h1, fun q hq hql => ?_⟩
        rcases List.mem_cons.mp hq with hq | hq
        · rw [hq] at hql; omega
        · exact h2 q hq hql
      · refine Or.inr ⟨p :: L₁, L₂, by rw [hps]; rfl, hs, hpos, ?_, hacc, hL₂⟩
        intro q hq
        rcases List.mem_cons.mp hq with hq | hq
        · rw [hq]; exact Or.inl hz
        · exact hL₁ q hq
    · rw [if_neg hz] at h
      by_cases hadopt : minAccepts acc (colorsRes g p).length = true
      · rw [if_pos hadopt] at h
        have haccLt : ∀ m, acc = some m → (colorsRes g p).length < m.2.2 := by
          intro m hm
          rw [hm] at hadopt
          exact of_decide_eq_true hadopt
        by_cases h1 : (colorsRes g p).length = 1
        · rw [if_pos h1] at h
          cases h
          refine Or.inr ⟨[], ps, by simp, rfl, by omega, by simp, ?_, ?_⟩
          · exact haccLt
          · intro q hq hql
            omega
        · rw [if_neg h1] at h
          rcases ih _ i j s h with ⟨h1', h2'⟩ |
              ⟨L₁, L₂, hps, hs, hpos, hL₁, hacc, hL₂⟩
          · cases Option.some_inj.mp h1'
            refine Or.inr ⟨[], ps, by simp, rfl, by omega, by simp, haccLt, h2'⟩
          · refine Or.inr ⟨p :: L₁, L₂, by rw [hps]; rfl, hs, hpos, ?_, ?_, hL₂⟩
            · intro q hq
              rcases List.mem_cons.mp hq with hq | hq
              · right
                rw [hq]
                exact hacc (p.1, p.2, (colorsRes g p).length) rfl
              · exact hL₁ q hq
            · intro m hm
              have h1'' := hacc (p.1, p.2, (colorsRes g p).length) rfl
              have h2'' := haccLt m hm
              exact Nat.lt_trans h1'' h2''
      · rw [if_neg hadopt] at h
        cases hac : acc with
        | none => rw [hac] at hadopt; exact absurd rfl hadopt
        | some m₀ =>
          rw [hac] at hadopt
          have hge : m₀.2.2 ≤ (colorsRes g p).length := by
            by_cases hlt : (colorsRes g p).length < m₀.2.2
            · exact absurd (decide_eq_true hlt) hadopt
            · omega
          rw [hac] at h
          rcases ih _ i j s h with ⟨h1', h2'⟩ |
              ⟨L₁, L₂, hps, hs, hpos, hL₁, hacc, hL₂⟩
          · have hm₀ : m₀ = (i, j, s) := Option.some_inj.mp h1'
            refine Or.inl ⟨by rw [hm₀], fun q hq hql => ?_⟩
            rcases List.mem_cons.mp hq with hq | hq
            · rw [hq]
              have : m₀.2.2 = s := by rw [hm₀]
              omega
            · exact h2' q hq hql
          · refine Or.inr ⟨p :: L₁, L₂, by rw [hps]; rfl, hs, hpos, ?_, ?_, hL₂⟩
            · intro q hq
              rcases List.mem_cons.mp hq with hq | hq
              · right
                rw [hq]
                have := hacc m₀ rfl
                omega
              · exact hL₁ q hq
            · intro m hm
              rw [← Option.some_inj.mp hm]
              exact hacc m₀ rfl

theorem mem_upperPairs (n : Nat) (p : Nat × Nat) :
    p ∈ upperPairs n ↔ p.1 ≤ p.2 ∧ p.2 < n := by
  unfold upperPairs
  rw [List.mem_flatMap]
  constructor
  · rintro ⟨i, hi, hmem⟩
    rw [List.mem_map] at hmem
    obtain ⟨j, hj, rfl⟩ := hmem
    rw [List.mem_range] at hi
    rw [List.mem_range'_1] at hj
    exact ⟨by omega, by omega⟩
  · rintro ⟨h1, h2⟩
    refine ⟨p.1, ?_, ?_⟩
    · rw [List.mem_range]; omega
    · rw [List.mem_map]
      refine ⟨p.2, ?_, rfl⟩
      rw [List.mem_range'_1]
      omega

theorem lexLt_irrefl (p : Nat × Nat) : ¬lexLt p p := by
  unfold lexLt; omega

theorem lexLt_asymm (p q : Nat × Nat) (h : lexLt p q) : ¬lexLt q p := by
  unfold lexLt at *; omega

theorem upperPairs_pairwise (n : Nat) : (upperPairs n).Pairwise lexLt := by
  unfold upperPairs
  rw [List.pairwise_flatMap]
  constructor
  · intro i _
    rw [List.pairwise_map]
    refine List.Pairwise.imp ?_ (List.pairwise_lt_range' i (n - i))
    intro a b hab
    exact Or.inr ⟨rfl, hab⟩
  · refine List.Pairwise.imp ?_ (List.pairwise_lt_range n)
    intro i₁ i₂ hlt x hx y hy
    rw [List.mem_map] at hx hy
    obtain ⟨j₁, _, rfl⟩ := hx
    obtain ⟨j₂, _, rfl⟩ := hy
    exact Or.inl hlt

/-- In a split of the (lex-sorted) scan order, everything lex-before the
split point sits in the left part. -/
theorem mem_left_of_lexLt (n : Nat) (L₁ L₂ : List (Nat × Nat))
    (q p : Nat × Nat) (hsplit : upperPairs n = L₁ ++ q :: L₂)
    (hp : p ∈ upperPairs n) (hlt : lexLt p q) : p ∈ L₁ := by
  have hpw := upperPairs_pairwise n
  rw [hsplit] at hpw hp
  rw [List.pairwise_append] at hpw
  obtain ⟨_, hpw2, _⟩ := hpw
  rcases List.mem_append.mp hp with h | h
  · exact h
  · rcases List.mem_cons.mp h with h | h
    · rw [h] at hlt
      exact absurd hlt (lexLt_irrefl q)
    · have := (List.pairwise_cons.mp hpw2).1 p h
      exact absurd hlt (lexLt_asymm q p this)

theorem min_colors_fst (g : Graph) :
    (g.min_colors).1 = (minScanP g none (upperPairs g.nodes.length)).map
      fun m => (m.1, m.2.1) := by
  unfold Graph.min_colors
  rw [minColorsAux_fst g _ none g (obsEq_rfl g)]

/-- Claim C8: `min_colors()` returns the lexicographically first position
`(i, j)` with `j ≥ i` whose candidate set has the minimal non-zero size
(positions scanned earlier have empty candidate sets or strictly larger
ones), and returns `none` iff every upper-triangle position has an empty
candidate set. -/
theorem min_colors_characterization (g : Graph) :
    ((g.min_colors).1 = none ↔
      ∀ p : Nat × Nat, p.1 ≤ p.2 → p.2 < g.nodes.length →
        (g.colors p).1.length = 0) ∧
    (∀ i j, (g.min_colors).1 = some (i, j) →
      i ≤ j ∧ j < g.nodes.length ∧ 0 < (g.colors (i, j)).1.length ∧
      (∀ p : Nat × Nat, p.1 ≤ p.2 → p.2 < g.nodes.length →
        0 < (g.colors p).1.length →
        (g.colors (i, j)).1.length ≤ (g.colors p).1.length) ∧
      (∀ p : Nat × Nat, p.1 ≤ p.2 → p.2 < g.nodes.length → lexLt p (i, j) →
        (g.colors p).1.length = 0 ∨
          (g.colors (i, j)).1.length < (g.colors p).1.length)) := by
  have hcr : ∀ p : Nat × Nat, (g.colors p).1 = colorsRes g p :=
    fun p => colors_fst g p
  constructor
  · rw [min_colors_fst g, Option.map_eq_none', minScanP_none g _ none]
    constructor
    · rintro ⟨_, h⟩ p h1 h2
      rw [hcr p]
      exact h p ((mem_upperPairs _ p).mpr ⟨h1, h2⟩)
    · intro h
      refine ⟨rfl, fun p hp => ?_⟩
      obtain ⟨h1, h2⟩ := (mem_upperPairs _ p).mp hp
      rw [← hcr p]
      exact h p h1 h2
  · intro i j hsome
    rw [min_colors_fst g, Option.map_eq_some'] at hsome
    obtain ⟨m, hm, hmeq⟩ := hsome
    rcases minScanP_some g _ none m.1 m.2.1 m.2.2 hm with ⟨habs, _⟩ |
        ⟨L₁, L₂, hsplit, hs, hpos, hL₁, _, hL₂⟩
    · exact absurd habs (by simp)
    · rw [hmeq] at hsplit hs
      have hmem : (i, j) ∈ upperPairs g.nodes.length := by
        rw [hsplit]
        exact List.mem_append.mpr (Or.inr (List.mem_cons_self _ _))
      obtain ⟨hij, hjn⟩ := (mem_upperPairs _ (i, j)).mp hmem
      have hsplitmem : ∀ p : Nat × Nat, p ∈ upperPairs g.nodes.length →
          p ∈ L₁ ∨ p = (i, j) ∨ p ∈ L₂ := by
        intro p hp
        rw [hsplit] at hp
        rcases List.mem_append.mp hp with h | h
        · exact Or.inl h
        · rcases List.mem_cons.mp h with h | h
          · exact Or.inr (Or.inl h)
          · exact Or.inr (Or.inr h)
      refine ⟨hij, hjn, ?_, ?_, ?_⟩
      · rw [hcr, ← hs]
        exact hpos
      · intro p h1 h2 h3
        rw [hcr, hcr, ← hs]
        rw [hcr] at h3
        rcases hsplitmem p ((mem_upperPairs _ p).mpr ⟨h1, h2⟩) with h | h | h
        · rcases hL₁ p h with h' | h'
          · omega
          · omega
        · rw [h, ← hs]
        · exact hL₂ p h h3
      · intro p h1 h2 hlt
        rw [hcr, hcr, ← hs]
        have hpL₁ : p ∈ L₁ :=
          mem_left_of_lexLt g.nodes.length L₁ L₂ (i, j) p hsplit
            ((mem_upperPairs _ p).mpr ⟨h1, h2⟩) hlt
        exact hL₁ p hpL₁

/-- Witness for `min_colors_characterization` at a concrete graph. -/
theorem min_colors_characterization_witness :
    (((gTwoNodes.min_colors).1 = none ↔
      ∀ p : Nat × Nat, p.1 ≤ p.2 → p.2 < gTwoNodes.nodes.length →
        (gTwoNodes.colors p).1.length = 0) ∧
    (∀ i j, (gTwoNodes.min_colors).1 = some (i, j) →
      i ≤ j ∧ j < gTwoNodes.nodes.length ∧
      0 < (gTwoNodes.colors (i, j)).1.length ∧
      (∀ p : Nat × Nat, p.1 ≤ p.2 → p.2 < gTwoNodes.nodes.length →
        0 < (gTwoNodes.colors p).1.length →
        (gTwoNodes.colors (i, j)).1.length ≤ (gTwoNodes.colors p).1.length) ∧
      (∀ p : Nat × Nat, p.1 ≤ p.2 → p.2 < gTwoNodes.nodes.length →
        lexLt p (i, j) →
        (gTwoNodes.colors p).1.length = 0 ∨
          (gTwoNodes.colors (i, j)).1.length <
            (gTwoNodes.colors p).1.length))) ∧
    (gTwoNodes.min_colors).1 = some (0, 1) :=
  ⟨min_colors_characterization gTwoNodes, by decide⟩

/-! ## Claim C9: `solve_simple` (lines 186–196)

The Rust method takes a callback `f: FnMut(&mut Self, Pos, Val)`; we embed
it as `f : Graph → Nat × Nat → Nat → Graph` and additionally return the
list of invocations `(position, value)` the scan performs, which is the
object claim C9 speaks about. -/

/-- The inner `for j in i+1..n` loop of `solve_simple`: query `colors`,
and when exactly one candidate remains call `f` (on the state the query
left behind) with the position and `colors[0]`. -/
def solveSimpleJ (f : Graph → Nat × Nat → Nat → Graph) (i : Nat) :
    Graph → List Nat → Graph × List ((Nat × Nat) × Nat)
  | g, [] => (g, [])
  | g, j :: js =>
    if (g.colors (i, j)).1.length = 1 then
      ((solveSimpleJ f i
          (f (g.colors (i, j)).2 (i, j) ((g.colors (i, j)).1.getD 0 0))
          js).1,
       ((i, j), (g.colors (i, j)).1.getD 0 0) ::
         (solveSimpleJ f i
           (f (g.colors (i, j)).2 (i, j) ((g.colors (i, j)).1.getD 0 0))
           js).2)
    else solveSimpleJ f i (g.colors (i, j)).2 js

/-- The outer `for i in 0..n` loop of `solve_simple` (`n` is read once at
entry, as in the source). -/
def solveSimpleI (f : Graph → Nat × Nat → Nat → Graph) (n : Nat) :
    Graph → List Nat → Graph × List ((Nat × Nat) × Nat)
  | g, [] => (g, [])
  | g, i :: is =>
    ((solveSimpleI f n
        (solveSimpleJ f i g (List.range' (i + 1) (n - (i + 1)))).1 is).1,
     (solveSimpleJ f i g (List.range' (i + 1) (n - (i + 1)))).2 ++
       (solveSimpleI f n
         (solveSimpleJ f i g (List.range' (i + 1) (n - (i + 1)))).1 is).2)

/-- `Puzzle::solve_simple` for `Graph`, with the invocation trace. -/
def Graph.solve_simple (g : Graph) (f : Graph → Nat × Nat → Nat → Graph) :
    Graph × List ((Nat × Nat) × Nat) :=
  solveSimpleI f g.nodes.length g (List.range g.nodes.length)

/-- The strictly-off-diagonal upper positions in lexicographic order —
the scan order claim C9 (amended) describes. -/
def offDiagPairs (n : Nat) : List (Nat × Nat) :=
  (List.range n).flatMap fun i =>
    (List.range' (i + 1) (n - (i + 1))).map fun j => (i, j)

/-- The scan claim C9 (amended) describes: walk the off-diagonal positions
in lexicographic order; at each, the callback fires iff the *candidate set
of the state at that moment* has exactly one element, receiving that sole
element; the state evolves by the enumerator's cache writes and the
callback itself. -/
def simpleScanSpec (f : Graph → Nat × Nat → Nat → Graph) :
    Graph → List (Nat × Nat) → Graph × List ((Nat × Nat) × Nat)
  | g, [] => (g, [])
  | g, p :: ps =>
    if (colorsRes g p).length = 1 then
      ((simpleScanSpec f (f (g.colors p).2 p ((colorsRes g p).getD 0 0)) ps).1,
       (p, (colorsRes g p).getD 0 0) ::
         (simpleScanSpec f (f (g.colors p).2 p ((colorsRes g p).getD 0 0))
           ps).2)
    else simpleScanSpec f (g.colors p).2 ps

theorem simpleScanSpec_append (f : Graph → Nat × Nat → Nat → Graph) :
    ∀ (l₁ l₂ : List (Nat × Nat)) (g : Graph),
    simpleScanSpec f g (l₁ ++ l₂) =
      ((simpleScanSpec f (simpleScanSpec f g l₁).1 l₂).1,
       (simpleScanSpec f g l₁).2 ++
         (simpleScanSpec f (simpleScanSpec f g l₁).1 l₂).2) := by
  intro l₁
  induction l₁ with
  | nil => intro l₂ g; rfl
  | cons p l₁ ih =>
    intro l₂ g
    by_cases h1 : (colorsRes g p).length = 1
    · have e1 : simpleScanSpec f g (p :: (l₁ ++ l₂)) =
          ((simpleScanSpec f
              (f (g.colors p).2 p ((colorsRes g p).getD 0 0)) (l₁ ++ l₂)).1,
           (p, (colorsRes g p).getD 0 0) ::
             (simpleScanSpec f
               (f (g.colors p).2 p ((colorsRes g p).getD 0 0))
               (l₁ ++ l₂)).2) := by
        simp only [simpleScanSpec]
        rw [if_pos h1]
      have e2 : simpleScanSpec f g (p :: l₁) =
          ((simpleScanSpec f
              (f (g.colors p).2 p ((colorsRes g p).getD 0 0)) l₁).1,
           (p, (colorsRes g p).getD 0 0) ::
             (simpleScanSpec f
               (f (g.colors p).2 p ((colorsRes g p).getD 0 0)) l₁).2) := by
        simp only [simpleScanSpec]
        rw [if_pos h1]
      rw [List.cons_append, e1,
        ih l₂ (f (g.colors p).2 p ((colorsRes g p).getD 0 0)), e2]
      rfl
    · have e1 : simpleScanSpec f g (p :: (l₁ ++ l₂)) =
          simpleScanSpec f (g.colors p).2 (l₁ ++ l₂) := by
        simp only [simpleScanSpec]
        rw [if_neg h1]
      have e2 : simpleScanSpec f g (p :: l₁) =
          simpleScanSpec f (g.colors p).2 l₁ := by
        simp only [simpleScanSpec]
        rw [if_neg h1]
      rw [List.cons_append, e1, ih l₂ (g.colors p).2, e2]

theorem solveSimpleJ_eq_scan (f : Graph → Nat × Nat → Nat → Graph)
    (i : Nat) : ∀ (js : List Nat) (g : Graph),
    solveSimpleJ f i g js =
      simpleScanSpec f g (js.map fun j => (i, j)) := by
  intro js
  induction js with
  | nil => intro g; rfl
  | cons j js ih =>
    intro g
    rw [List.map_cons]
    simp only [solveSimpleJ, simpleScanSpec]
    rw [colors_fst g (i, j)]
    by_cases h1 : (colorsRes g (i, j)).length = 1
    · rw [if_pos h1, if_pos h1, ih]
    · rw [if_neg h1, if_neg h1, ih]

theorem solveSimpleI_eq_scan (f : Graph → Nat × Nat → Nat → Graph)
    (n : Nat) : ∀ (is : List Nat) (g : Graph),
    solveSimpleI f n g is =
      simpleScanSpec f g (is.flatMap fun i =>
        (List.range' (i + 1) (n - (i + 1))).map fun j => (i, j)) := by
  intro is
  induction is with
  | nil => intro g; rfl
  | cons i is ih =>
    intro g
    rw [List.flatMap_cons, simpleScanSpec_append]
    simp only [solveSimpleI]
    rw [solveSimpleJ_eq_scan, ih]

/-- Claim C9 (amended): `solve_simple` scans exactly the off-diagonal
upper positions `(i, j)` with `i < j < n` in lexicographic order, invoking
the callback with the position and the sole candidate exactly at those
positions whose candidate set has exactly one element at the moment they
are scanned; diagonal positions are never scanned (the inner loop starts
at `j = i + 1`), which the claim as stated denies. -/
theorem solve_simple_scans_off_diagonal (g : Graph)
    (f : Graph → Nat × Nat → Nat → Graph) :
    g.solve_simple f = simpleScanSpec f g (offDiagPairs g.nodes.length) := by
  unfold Graph.solve_simple offDiagPairs
  exact solveSimpleI_eq_scan f g.nodes.length (List.range g.nodes.length) g

/-- Witness for `solve_simple_scans_off_diagonal` at a concrete graph and
callback. -/
theorem solve_simple_scans_off_diagonal_witness :
    gTwoNodes.solve_simple (fun g _ _ => g) =
      simpleScanSpec (fun g _ _ => g) gTwoNodes
        (offDiagPairs gTwoNodes.nodes.length) :=
  solve_simple_scans_off_diagonal gTwoNodes (fun g _ _ => g)

/-- A single self-connectable node whose template wants a color-2 edge to a
(nonexistent) color-5 node: its diagonal position has the sole candidate
`1`. -/
def gC9 : Graph := Graph.new.push ⟨0, true, [⟨2, 5⟩]⟩

/-- Counterexample to claim C9 as stated: the diagonal position `(0,0)`
has candidate set `[1]` — exactly one element — yet `solve_simple` never
invokes the callback (its inner loop starts at `j = i + 1`, skipping the
diagonal), so the trace is empty. -/
theorem solve_simple_skips_diagonal_singleton :
    (gC9.colors (0, 0)).1 = [1] ∧
    (gC9.solve_simple (fun g _ _ => g)).2 = [] := by decide

/-! ## Claim C2: the monotone-cache invariant

We show which cache cells stay justified along every sequence of public
operations, and exhibit a reachable state whose upper-right cell is stale.
Throughout, "recomputing" a predicate means its cache-free scan
(`htCore`, `nodeSatRes`, `commuteCore`). -/

theorem getD_append_left {l₁ l₂ : List α} {n : Nat} {d : α}
    (h : n < l₁.length) : (l₁ ++ l₂).getD n d = l₁.getD n d := by
  rw [List.getD_eq_getElem?_getD, List.getD_eq_getElem?_getD,
    List.getElem?_append, if_pos h]

theorem getD_append_right {l₁ l₂ : List α} {n : Nat} {d : α}
    (h : l₁.length ≤ n) :
    (l₁ ++ l₂).getD n d = l₂.getD (n - l₁.length) d := by
  rw [List.getD_eq_getElem?_getD, List.getD_eq_getElem?_getD,
    List.getElem?_append, if_neg (by omega)]

theorem getD_replicate (n c : Nat) :
    (List.replicate n (0 : Nat)).getD c 0 = 0 := by
  rw [List.getD_eq_getElem?_getD, List.getElem?_replicate]
  by_cases h : c < n
  · rw [if_pos h]; rfl
  · rw [if_neg h]; rfl

theorem push_nodes_length (g : Graph) (nd : Node) :
    (g.push nd).nodes.length = g.nodes.length + 1 := by
  show (g.nodes ++ [nd]).length = g.nodes.length + 1
  rw [List.length_append]
  rfl

/-- `push` does not change any edge value (the fresh row is all zeros and
an out-of-range row also reads as zeros). -/
theorem get_push (g : Graph) (nd : Node) (p : Nat × Nat) :
    (g.push nd).get p = g.get p := by
  have hrow : ∀ (r c : Nat),
      ((g.edges ++ [List.replicate (g.nodes.length + 1) 0]).getD r []).getD
        c 0 = (g.edges.getD r []).getD c 0 := by
    intro r c
    by_cases h1 : r < g.edges.length
    · rw [getD_append_left h1]
    · rw [getD_append_right (Nat.le_of_not_lt h1)]
      rw [List.getD_eq_default _ _ (Nat.le_of_not_lt h1)]
      by_cases h2 : r - g.edges.length = 0
      · rw [h2]
        show (List.replicate (g.nodes.length + 1) 0).getD c 0 = [].getD c 0
        rw [getD_replicate]
        rfl
      · have : ([List.replicate (g.nodes.length + 1) (0 : Nat)]).getD
            (r - g.edges.length) [] = [] := by
          refine List.getD_eq_default _ _ ?_
          simp only [List.length_singleton]
          omega
        rw [this]
  unfold Graph.get Graph.push
  by_cases h : p.2 ≤ p.1
  · rw [if_pos h, if_pos h]
    exact hrow p.1 p.2
  · rw [if_neg h, if_neg h]
    exact hrow p.2 p.1

/-- Out-of-range positions read `0` on a shape-correct graph. -/
theorem get_oob (g : Graph) (hWF : EdgesWF g) (x y : Nat)
    (h : g.nodes.length ≤ x ∨ g.nodes.length ≤ y) : g.get (x, y) = 0 := by
  obtain ⟨hlen, _⟩ := hWF
  unfold Graph.get
  by_cases hc : y ≤ x
  · rw [if_pos hc]
    show (g.edges.getD x []).getD y 0 = 0
    have hrow : g.edges.getD x [] = [] :=
      List.getD_eq_default _ _ (by omega)
    rw [hrow]
    rfl
  · rw [if_neg hc]
    show (g.edges.getD y []).getD x 0 = 0
    have hrow : g.edges.getD y [] = [] :=
      List.getD_eq_default _ _ (by omega)
    rw [hrow]
    rfl

theorem set_nodes (g : Graph) (p : Nat × Nat) (v : Nat) :
    (g.set p v).nodes = g.nodes := rfl

theorem set_cache_ht (g : Graph) (a b v : Nat) :
    (g.set (a, b) v).cache_has_triangles =
      if g.get (a, b) ≠ 0 then false else g.cache_has_triangles := rfl

theorem set_cache_commute (g : Graph) (a b v : Nat) :
    (g.set (a, b) v).cache_commute_quad_satisfied =
      if ¬(g.get (a, b) = 0 ∧ v = 1) then false
      else g.cache_commute_quad_satisfied := rfl

theorem set_cache_node (g : Graph) (a b v : Nat) :
    (g.set (a, b) v).cache_node_satisfied =
      if g.get (a, b) ≠ 0 then
        (g.cache_node_satisfied.set a false).set b false
      else g.cache_node_satisfied := rfl

theorem set_edges (g : Graph) (p : Nat × Nat) (v : Nat) :
    (g.set p v).edges =
      if p.2 ≤ p.1 then g.edges.set p.1 ((g.edges.getD p.1 []).set p.2 v)
      else g.edges.set p.2 ((g.edges.getD p.2 []).set p.1 v) := rfl

theorem push_cache_node (g : Graph) (nd : Node) :
    (g.push nd).cache_node_satisfied =
      g.cache_node_satisfied ++ [false] := rfl

/-- A pair whose current value is nonzero is untouched by a `set` on a pair
whose current value is zero. -/
theorem get_set_of_ne_zero (g : Graph) (a b v x y : Nat)
    (hold : g.get (a, b) = 0) (hx : g.get (x, y) ≠ 0) :
    (g.set (a, b) v).get (x, y) = g.get (x, y) := by
  refine get_set_other g a b v x y ?_ ?_
  · rintro ⟨rfl, rfl⟩
    exact hx hold
  · rintro ⟨rfl, rfl⟩
    exact hx ((get_symm g x y).trans hold)

theorem filterMap_congr_mem {f f' : α → Option β} :
    ∀ l : List α, (∀ a ∈ l, f a = f' a) → l.filterMap f = l.filterMap f' := by
  intro l
  induction l with
  | nil => intro _; rfl
  | cons a l ih =>
    intro h
    rw [List.filterMap_cons, List.filterMap_cons, h a (List.mem_cons_self a l),
      ih fun b hb => h b (List.mem_cons_of_mem a hb)]

theorem tmplOf_push (g : Graph) (nd : Node) (i : Nat)
    (hi : i < g.nodes.length) : tmplOf (g.push nd) i = tmplOf g i := by
  unfold tmplOf
  show ((g.nodes ++ [nd]).getD i dNode).edges = _
  rw [getD_append_left hi]

theorem colorOf_push (g : Graph) (nd : Node) (j : Nat)
    (hj : j < g.nodes.length) : colorOf (g.push nd) j = colorOf g j := by
  unfold colorOf
  show ((g.nodes ++ [nd]).getD j dNode).color = _
  rw [getD_append_left hj]

/-! ## C2: the cache invariant over reachable states -/

theorem all_congr_mem {f f' : α → Bool} :
    ∀ l : List α, (∀ a ∈ l, f a = f' a) → l.all f = l.all f' := by
  intro l
  induction l with
  | nil => intro _; rfl
  | cons a l ih =>
    intro h
    rw [List.all_cons, List.all_cons, h a (List.mem_cons_self a l),
      ih fun b hb => h b (List.mem_cons_of_mem a hb)]

theorem getD_set_false_ne (l : List Bool) (r x : Nat) (hx : x ≠ r) :
    (l.set r false).getD x false = l.getD x false :=
  getD_set_ne (fun h => hx h.symm)

theorem getD_set_false_self (l : List Bool) (r : Nat) :
    (l.set r false).getD r false = false := by
  by_cases h : r < l.length
  · exact getD_set_self h
  · rw [List.set_eq_of_length_le (Nat.le_of_not_lt h)]
    exact List.getD_eq_default _ _ (Nat.le_of_not_lt h)

/-- Triangle characterization of the `has_triangles` scan: some ordered
triple below `n` with all three connecting edges concrete. -/
theorem htCore_iff (g : Graph) : htCore g = true ↔
    ∃ i j k, i < j ∧ j < k ∧ k < g.nodes.length ∧
      2 ≤ g.get (i, j) ∧ 2 ≤ g.get (j, k) ∧ 2 ≤ g.get (i, k) := by
  unfold htCore
  rw [List.any_eq_true]
  constructor
  · rintro ⟨i, hi, hbody⟩
    rw [List.any_eq_true] at hbody
    obtain ⟨j, hj, hbody⟩ := hbody
    rw [List.mem_range] at hi
    rw [List.mem_range'_1] at hj
    by_cases hij : g.get (i, j) < 2
    · rw [if_pos hij] at hbody
      exact absurd hbody Bool.false_ne_true
    · rw [if_neg hij] at hbody
      rw [List.any_eq_true] at hbody
      obtain ⟨k, hk, hbody⟩ := hbody
      rw [List.mem_range'_1] at hk
      rw [Bool.and_eq_true, decide_eq_true_eq, decide_eq_true_eq] at hbody
      exact ⟨i, j, k, by omega, by omega, by omega, by omega, hbody.1,
        hbody.2⟩
  · rintro ⟨i, j, k, h1, h2, h3, h4, h5, h6⟩
    refine ⟨i, List.mem_range.mpr (by omega), ?_⟩
    rw [List.any_eq_true]
    refine ⟨j, List.mem_range'_1.mpr ⟨by omega, by omega⟩, ?_⟩
    rw [if_neg (by omega)]
    rw [List.any_eq_true]
    refine ⟨k, List.mem_range'_1.mpr ⟨by omega, by omega⟩, ?_⟩
    rw [Bool.and_eq_true, decide_eq_true_eq, decide_eq_true_eq]
    exact ⟨h5, h6⟩

/-- `push` cannot destroy a triangle: the witness indices survive. -/
theorem htCore_push (g : Graph) (nd : Node) (h : htCore g = true) :
    htCore (g.push nd) = true := by
  rw [htCore_iff] at h ⊢
  obtain ⟨i, j, k, h1, h2, h3, h4, h5, h6⟩ := h
  refine ⟨i, j, k, h1, h2, ?_, ?_, ?_, ?_⟩
  · rw [push_nodes_length]; omega
  · rw [get_push]; exact h4
  · rw [get_push]; exact h5
  · rw [get_push]; exact h6

/-- Writing over a zero cell cannot destroy a triangle: every concrete edge
keeps its value. -/
theorem htCore_set_zero (g : Graph) (a b v : Nat) (hold : g.get (a, b) = 0)
    (h : htCore g = true) : htCore (g.set (a, b) v) = true := by
  rw [htCore_iff] at h ⊢
  obtain ⟨i, j, k, h1, h2, h3, h4, h5, h6⟩ := h
  refine ⟨i, j, k, h1, h2, h3, ?_, ?_, ?_⟩
  · rw [get_set_of_ne_zero g a b v i j hold (by omega)]; exact h4
  · rw [get_set_of_ne_zero g a b v j k hold (by omega)]; exact h5
  · rw [get_set_of_ne_zero g a b v i k hold (by omega)]; exact h6

/-- The triangle scan only reads the nodes and the edge matrix. -/
theorem htCore_congr (g h : Graph) (hn : h.nodes = g.nodes)
    (he : h.edges = g.edges) : htCore h = htCore g := by
  unfold htCore Graph.get
  simp only [hn, he]

/-- The quad scan only reads the nodes and the edge matrix. -/
theorem commuteCore_fields_congr (g h : Graph) (hn : h.nodes = g.nodes)
    (he : h.edges = g.edges) (cm : Bool) :
    commuteCore h cm = commuteCore g cm := by
  unfold commuteCore commuteKLoop commuteK2Loop commuteBody Graph.get
  simp only [hn, he]

/-- The greedy matching result for node `i` only depends on the nodes and
on row `i` of the edge relation. -/
theorem nodeSatRes_congr (g g' : Graph) (i : Nat)
    (hn : Graph.nodes g' = g.nodes)
    (hget : ∀ j, Graph.get g' (i, j) = g.get (i, j)) :
    nodeSatRes g' i = nodeSatRes g i := by
  rw [nodeSatRes_eq, nodeSatRes_eq]
  unfold nodeSatSpecNZ classesOf
  have ht : tmplOf g' i = tmplOf g i := by unfold tmplOf; rw [hn]
  have hc : ∀ j, classFn g' i j = classFn g i j := by
    intro j
    unfold classFn colorOf
    rw [hget j, hn]
  rw [ht, hn, filterMap_congr_mem _ (fun j _ => hc j)]

/-- The quad body at a quad whose outer edge is concrete is unchanged by
any modification that preserves concreteness guards and concrete values. -/
theorem commuteBody_congr (g g' : Graph)
    (H1 : ∀ x y, 2 ≤ Graph.get g' (x, y) ↔ 2 ≤ g.get (x, y))
    (H2 : ∀ x y, 2 ≤ g.get (x, y) → Graph.get g' (x, y) = g.get (x, y))
    (cm : Bool) (i j k k2 : Nat) (hij : 2 ≤ g.get (i, j)) :
    commuteBody g' cm i j k k2 = commuteBody g cm i j k k2 := by
  unfold commuteBody
  by_cases hA : 2 ≤ g.get (k, k2) ∧ 2 ≤ g.get (j, k) ∧ 2 ≤ g.get (i, k2)
  · have hA' : 2 ≤ Graph.get g' (k, k2) ∧ 2 ≤ Graph.get g' (j, k) ∧
        2 ≤ Graph.get g' (i, k2) :=
      ⟨(H1 _ _).mpr hA.1, (H1 _ _).mpr hA.2.1, (H1 _ _).mpr hA.2.2⟩
    rw [if_pos hA', if_pos hA, H2 _ _ hA.1, H2 _ _ hA.2.1, H2 _ _ hA.2.2,
      H2 _ _ hij]
  · have hA' : ¬(2 ≤ Graph.get g' (k, k2) ∧ 2 ≤ Graph.get g' (j, k) ∧
        2 ≤ Graph.get g' (i, k2)) := fun hx =>
      hA ⟨(H1 _ _).mp hx.1, (H1 _ _).mp hx.2.1, (H1 _ _).mp hx.2.2⟩
    rw [if_neg hA', if_neg hA]
    by_cases hB : 2 ≤ g.get (k, k2) ∧ 2 ≤ g.get (i, k) ∧ 2 ≤ g.get (j, k2)
    · have hB' : 2 ≤ Graph.get g' (k, k2) ∧ 2 ≤ Graph.get g' (i, k) ∧
          2 ≤ Graph.get g' (j, k2) :=
        ⟨(H1 _ _).mpr hB.1, (H1 _ _).mpr hB.2.1, (H1 _ _).mpr hB.2.2⟩
      rw [if_pos hB', if_pos hB, H2 _ _ hB.1, H2 _ _ hB.2.1, H2 _ _ hB.2.2,
        H2 _ _ hij]
    · have hB' : ¬(2 ≤ Graph.get g' (k, k2) ∧ 2 ≤ Graph.get g' (i, k) ∧
          2 ≤ Graph.get g' (j, k2)) := fun hx =>
        hB ⟨(H1 _ _).mp hx.1, (H1 _ _).mp hx.2.1, (H1 _ _).mp hx.2.2⟩
      rw [if_neg hB', if_neg hB]

theorem commuteK2Loop_congr (g g' : Graph)
    (H1 : ∀ x y, 2 ≤ Graph.get g' (x, y) ↔ 2 ≤ g.get (x, y))
    (H2 : ∀ x y, 2 ≤ g.get (x, y) → Graph.get g' (x, y) = g.get (x, y))
    (cm : Bool) (n i j k : Nat) (hij : 2 ≤ g.get (i, j)) :
    commuteK2Loop g' cm n i j k = commuteK2Loop g cm n i j k := by
  unfold commuteK2Loop
  refine all_congr_mem _ fun k2 _ => ?_
  by_cases hk : k2 = i ∨ k2 = j ∨ k2 = k
  · rw [if_pos hk, if_pos hk]
  · rw [if_neg hk, if_neg hk, commuteBody_congr g g' H1 H2 cm i j k k2 hij]

theorem commuteKLoop_congr (g g' : Graph)
    (H1 : ∀ x y, 2 ≤ Graph.get g' (x, y) ↔ 2 ≤ g.get (x, y))
    (H2 : ∀ x y, 2 ≤ g.get (x, y) → Graph.get g' (x, y) = g.get (x, y))
    (cm : Bool) (n i j : Nat) (hij : 2 ≤ g.get (i, j)) :
    commuteKLoop g' cm n i j = commuteKLoop g cm n i j := by
  unfold commuteKLoop
  refine all_congr_mem _ fun k _ => ?_
  by_cases hk : k = i
  · rw [if_pos hk, if_pos hk]
  · rw [if_neg hk, if_neg hk]
    by_cases hg : g.get (j, k) < 2 ∧ g.get (i, k) < 2
    · have hg' : Graph.get g' (j, k) < 2 ∧ Graph.get g' (i, k) < 2 := by
        have e1 := H1 j k
        have e2 := H1 i k
        omega
      rw [if_pos hg', if_pos hg]
    · have hg' : ¬(Graph.get g' (j, k) < 2 ∧ Graph.get g' (i, k) < 2) := by
        have e1 := H1 j k
        have e2 := H1 i k
        omega
      rw [if_neg hg', if_neg hg, commuteK2Loop_congr g g' H1 H2 cm n i j k hij]

/-- The full quad scan is unchanged by any modification that preserves the
node count, the concreteness of every edge, and the value of every
concrete edge. -/
theorem commuteCore_guard_congr (g g' : Graph)
    (hn : Graph.nodes g' = g.nodes)
    (H1 : ∀ x y, 2 ≤ Graph.get g' (x, y) ↔ 2 ≤ g.get (x, y))
    (H2 : ∀ x y, 2 ≤ g.get (x, y) → Graph.get g' (x, y) = g.get (x, y))
    (cm : Bool) : commuteCore g' cm = commuteCore g cm := by
  unfold commuteCore
  simp only [hn]
  refine all_congr_mem _ fun i _ => ?_
  refine all_congr_mem _ fun j _ => ?_
  by_cases hij : i = j
  · rw [if_pos hij, if_pos hij]
  · rw [if_neg hij, if_neg hij]
    by_cases hlt : g.get (i, j) < 2
    · have hlt' : Graph.get g' (i, j) < 2 := by have := H1 i j; omega
      rw [if_pos hlt', if_pos hlt]
    · have hlt' : ¬Graph.get g' (i, j) < 2 := by have := H1 i j; omega
      rw [if_neg hlt', if_neg hlt,
        commuteKLoop_congr g g' H1 H2 cm g.nodes.length i j
          (Nat.le_of_not_lt hlt)]

/-- Writing `1` over a zero cell leaves the quad scan unchanged: the cell
stays below the concreteness threshold and every concrete edge keeps its
value. -/
theorem commuteCore_set_one (g : Graph) (hWF : EdgesWF g) (a b : Nat)
    (ha : a < g.nodes.length) (hb : b < g.nodes.length)
    (hold : g.get (a, b) = 0) (cm : Bool) :
    commuteCore (g.set (a, b) 1) cm = commuteCore g cm := by
  refine commuteCore_guard_congr g (g.set (a, b) 1) (set_nodes g (a, b) 1)
    ?_ ?_ cm
  · intro x y
    by_cases hxy : (x = a ∧ y = b) ∨ (x = b ∧ y = a)
    · have hv : (g.set (a, b) 1).get (x, y) = 1 := by
        rcases hxy with ⟨h1, h2⟩ | ⟨h1, h2⟩
        · rw [h1, h2]
          exact get_set_self g hWF a b 1 ha hb
        · rw [h1, h2, get_symm]
          exact get_set_self g hWF a b 1 ha hb
      have hv0 : g.get (x, y) = 0 := by
        rcases hxy with ⟨h1, h2⟩ | ⟨h1, h2⟩
        · rw [h1, h2]
          exact hold
        · rw [h1, h2, get_symm]
          exact hold
      rw [hv, hv0]
      omega
    · have h1 : ¬(x = a ∧ y = b) := fun hx => hxy (Or.inl hx)
      have h2 : ¬(x = b ∧ y = a) := fun hx => hxy (Or.inr hx)
      rw [get_set_other g a b 1 x y h1 h2]
  · intro x y hxy
    exact get_set_of_ne_zero g a b 1 x y hold (by omega)

theorem commuteBody_push (g : Graph) (nd : Node) (cm : Bool)
    (i j k k2 : Nat) :
    commuteBody (g.push nd) cm i j k k2 = commuteBody g cm i j k k2 := by
  unfold commuteBody
  simp only [get_push]

theorem commuteK2Loop_push (g : Graph) (nd : Node) (cm : Bool)
    (n i j k : Nat) :
    commuteK2Loop (g.push nd) cm n i j k = commuteK2Loop g cm n i j k := by
  unfold commuteK2Loop
  simp only [commuteBody_push]

theorem commuteKLoop_push (g : Graph) (nd : Node) (cm : Bool) (n i j : Nat) :
    commuteKLoop (g.push nd) cm n i j = commuteKLoop g cm n i j := by
  unfold commuteKLoop
  simp only [get_push, commuteK2Loop_push]

/-- Extending the `k2` range by the fresh, edgeless index is a no-op: both
quad-orientation guards need a concrete edge at `(k, n)`. -/
theorem commuteK2Loop_succ (g : Graph) (hWF : EdgesWF g) (cm : Bool)
    (i j k : Nat) :
    commuteK2Loop g cm (g.nodes.length + 1) i j k =
      commuteK2Loop g cm g.nodes.length i j k := by
  unfold commuteK2Loop
  rw [List.range_succ, List.all_append, List.all_cons, List.all_nil]
  have hz : g.get (k, g.nodes.length) = 0 :=
    get_oob g hWF _ _ (Or.inr (Nat.le_refl _))
  have hlast : (if g.nodes.length = i ∨ g.nodes.length = j ∨
      g.nodes.length = k then true
      else commuteBody g cm i j k g.nodes.length) = true := by
    by_cases hc : g.nodes.length = i ∨ g.nodes.length = j ∨
        g.nodes.length = k
    · rw [if_pos hc]
    · rw [if_neg hc]
      unfold commuteBody
      rw [if_neg (fun hx => by rw [hz] at hx; omega),
        if_neg (fun hx => by rw [hz] at hx; omega)]
  rw [hlast, Bool.and_true, Bool.and_true]

/-- Extending the `k` range by the fresh, edgeless index is a no-op: its
skip guard fires because both its edges into the quad are `0`. -/
theorem commuteKLoop_succ (g : Graph) (hWF : EdgesWF g) (cm : Bool)
    (i j : Nat) :
    commuteKLoop g cm (g.nodes.length + 1) i j =
      commuteKLoop g cm g.nodes.length i j := by
  unfold commuteKLoop
  by_cases hj : j + 1 ≤ g.nodes.length
  · have e1 : g.nodes.length + 1 - (j + 1) =
        (g.nodes.length - (j + 1)) + 1 := by omega
    rw [e1, List.range'_1_concat]
    have e2 : j + 1 + (g.nodes.length - (j + 1)) = g.nodes.length := by omega
    rw [e2, List.all_append, List.all_cons, List.all_nil]
    have hlast : (if g.nodes.length = i then true
        else if g.get (j, g.nodes.length) < 2 ∧
            g.get (i, g.nodes.length) < 2 then true
        else commuteK2Loop g cm (g.nodes.length + 1) i j
          g.nodes.length) = true := by
      by_cases hc : g.nodes.length = i
      · rw [if_pos hc]
      · rw [if_neg hc, if_pos ⟨by
          rw [get_oob g hWF j _ (Or.inr (Nat.le_refl _))]; omega, by
          rw [get_oob g hWF i _ (Or.inr (Nat.le_refl _))]; omega⟩]
    rw [hlast, Bool.and_true, Bool.and_true]
    refine all_congr_mem _ fun k _ => ?_
    by_cases hc : k = i
    · rw [if_pos hc, if_pos hc]
    · rw [if_neg hc, if_neg hc]
      by_cases hg : g.get (j, k) < 2 ∧ g.get (i, k) < 2
      · rw [if_pos hg, if_pos hg]
      · rw [if_neg hg, if_neg hg, commuteK2Loop_succ g hWF cm i j k]
  · have e1 : g.nodes.length + 1 - (j + 1) = 0 := by omega
    have e2 : g.nodes.length - (j + 1) = 0 := by omega
    rw [e1, e2, List.range'_zero]
    rfl

/-- `push` leaves the quad scan unchanged: the fresh node has no concrete
edges, so it joins no quad. -/
theorem commuteCore_push (g : Graph) (hWF : EdgesWF g) (nd : Node)
    (cm : Bool) : commuteCore (g.push nd) cm = commuteCore g cm := by
  unfold commuteCore
  simp only [get_push, commuteKLoop_push, push_nodes_length]
  rw [List.range_succ]
  rw [List.all_append, List.all_cons, List.all_nil]
  have hrow : ((List.range g.nodes.length ++ [g.nodes.length]).all fun j =>
      if g.nodes.length = j then true
      else if g.get (g.nodes.length, j) < 2 then true
      else commuteKLoop g cm (g.nodes.length + 1) g.nodes.length j)
      = true := by
    rw [List.all_eq_true]
    intro j _
    by_cases hc : g.nodes.length = j
    · rw [if_pos hc]
    · rw [if_neg hc,
        if_pos (by rw [get_oob g hWF _ j (Or.inl (Nat.le_refl _))]; omega)]
  rw [hrow, Bool.and_true, Bool.and_true]
  refine all_congr_mem _ fun i hi => ?_
  have hi' : i < g.nodes.length := List.mem_range.mp hi
  rw [List.all_append, List.all_cons, List.all_nil]
  have hlast : (if i = g.nodes.length then true
      else if g.get (i, g.nodes.length) < 2 then true
      else commuteKLoop g cm (g.nodes.length + 1) i g.nodes.length)
      = true := by
    rw [if_neg (by omega),
      if_pos (by rw [get_oob g hWF i _ (Or.inr (Nat.le_refl _))]; omega)]
  rw [hlast, Bool.and_true, Bool.and_true]
  refine all_congr_mem _ fun j _ => ?_
  by_cases hc : i = j
  · rw [if_pos hc, if_pos hc]
  · rw [if_neg hc, if_neg hc]
    by_cases hg : g.get (i, j) < 2
    · rw [if_pos hg, if_pos hg]
    · rw [if_neg hg, if_neg hg, commuteKLoop_succ g hWF cm i j]

/-- `push` leaves the matching result of an existing node unchanged: the
fresh scan position `n` reads a `0` edge and is skipped. -/
theorem nodeSatRes_push (g : Graph) (hWF : EdgesWF g) (nd : Node) (i : Nat)
    (hi : i < g.nodes.length) :
    nodeSatRes (g.push nd) i = nodeSatRes g i := by
  rw [nodeSatRes_eq, nodeSatRes_eq]
  unfold nodeSatSpecNZ classesOf
  rw [tmplOf_push g nd i hi, push_nodes_length, List.range_succ,
    List.filterMap_append]
  have hlast : List.filterMap (classFn (g.push nd) i) [g.nodes.length]
      = [] := by
    rw [List.filterMap_cons_none, List.filterMap_nil]
    refine classFn_none _ i _ ?_
    rw [get_push]
    exact get_oob g hWF i _ (Or.inr (Nat.le_refl _))
  rw [hlast, List.append_nil]
  have hcong : List.filterMap (classFn (g.push nd) i)
      (List.range g.nodes.length)
      = List.filterMap (classFn g i) (List.range g.nodes.length) := by
    refine filterMap_congr_mem _ fun j hj => ?_
    have hj' : j < g.nodes.length := List.mem_range.mp hj
    unfold classFn
    rw [get_push, colorOf_push g nd j hj']
  rw [hcong]

/-- A `set` on a pair not involving node `i` leaves `i`'s matching result
unchanged. -/
theorem nodeSatRes_set_other (g : Graph) (a b v i : Nat) (hia : i ≠ a)
    (hib : i ≠ b) : nodeSatRes (g.set (a, b) v) i = nodeSatRes g i := by
  refine nodeSatRes_congr g (g.set (a, b) v) i (set_nodes g (a, b) v)
    fun j => ?_
  exact get_set_other g a b v i j (fun h => hia h.1) (fun h => hib h.1)

/-- A `set` over a zero cell can only add a participating pair, and the
greedy matching is monotone in the participating multiset: a satisfied
node stays satisfied. -/
theorem nodeSatRes_set_zero (g : Graph) (a b v i : Nat)
    (hold : g.get (a, b) = 0) (h : nodeSatRes g i = []) :
    nodeSatRes (g.set (a, b) v) i = [] := by
  rw [nodeSatRes_eq] at h ⊢
  unfold nodeSatSpecNZ at h ⊢
  have ht : tmplOf (g.set (a, b) v) i = tmplOf g i := rfl
  rw [ht]
  refine resSpec_mono (tmplOf g i) (classesOf g i)
    (classesOf (g.set (a, b) v) i) (fun c => ?_) h
  unfold classesOf
  have hn : (g.set (a, b) v).nodes.length = g.nodes.length := rfl
  rw [hn]
  refine ccount_filterMap_mono (classFn g i) (classFn (g.set (a, b) v) i) _
    (fun j _ => ?_) c
  by_cases hz : g.get (i, j) = 0
  · exact Or.inr (classFn_none g i j hz)
  · refine Or.inl ?_
    unfold classFn
    rw [get_set_of_ne_zero g a b v i j hold hz]
    rfl

/-- `set` keeps the jagged edge matrix shape. -/
theorem edgesWF_set (g : Graph) (hWF : EdgesWF g) (p : Nat × Nat)
    (v : Nat) : EdgesWF (g.set p v) := by
  obtain ⟨hlen, hrow⟩ := hWF
  have hsetrow : ∀ r c i : Nat, i < g.nodes.length →
      ((g.edges.set r ((g.edges.getD r []).set c v)).getD i []).length
        = i + 1 := by
    intro r c i hi
    by_cases hir : i = r
    · subst hir
      by_cases hlt : i < g.edges.length
      · rw [getD_set_self hlt, List.length_set]
        exact hrow i hi
      · rw [List.set_eq_of_length_le (Nat.le_of_not_lt hlt)]
        exact hrow i hi
    · rw [getD_set_ne (fun h => hir h.symm)]
      exact hrow i hi
  refine ⟨?_, ?_⟩
  · rw [set_edges, set_nodes]
    by_cases h : p.2 ≤ p.1
    · rw [if_pos h, List.length_set]
      exact hlen
    · rw [if_neg h, List.length_set]
      exact hlen
  · intro i hi
    rw [set_nodes] at hi
    rw [set_edges]
    by_cases h : p.2 ≤ p.1
    · rw [if_pos h]
      exact hsetrow p.1 p.2 i hi
    · rw [if_neg h]
      exact hsetrow p.2 p.1 i hi

/-- `push` keeps the jagged edge matrix shape. -/
theorem edgesWF_push (g : Graph) (hWF : EdgesWF g) (nd : Node) :
    EdgesWF (g.push nd) := by
  obtain ⟨hlen, hrow⟩ := hWF
  refine ⟨?_, ?_⟩
  · show (g.edges ++ [List.replicate (g.nodes.length + 1) 0]).length
      = (g.push nd).nodes.length
    rw [List.length_append, push_nodes_length, List.length_singleton, hlen]
  · intro i hi
    rw [push_nodes_length] at hi
    show ((g.edges ++ [List.replicate (g.nodes.length + 1) 0]).getD i
      []).length = i + 1
    by_cases hlt : i < g.edges.length
    · rw [getD_append_left hlt]
      exact hrow i (by omega)
    · rw [getD_append_right (Nat.le_of_not_lt hlt)]
      have h0 : i - g.edges.length = 0 := by omega
      rw [h0]
      show (List.replicate (g.nodes.length + 1) 0).length = i + 1
      rw [List.length_replicate]
      omega

/-- Shape invariant maintained by the public API: the edge matrix is
jagged-lower-triangular and the node cache has one cell per node. -/
def ShapeWF (g : Graph) : Prop :=
  EdgesWF g ∧ g.cache_node_satisfied.length = g.nodes.length

/-- States reachable through the public operations, queries included;
`set` carries the in-range conditions under which the Rust indexing does
not panic. -/
inductive Reachable : Graph → Prop where
  | new : Reachable Graph.new
  | push (g : Graph) (nd : Node) : Reachable g → Reachable (g.push nd)
  | push_pair (g : Graph) (p : Nat × Nat) :
      Reachable g → Reachable (g.push_pair p)
  | set (g : Graph) (p : Nat × Nat) (v : Nat)
      (h1 : p.1 < g.nodes.length) (h2 : p.2 < g.nodes.length) :
      Reachable g → Reachable (g.set p v)
  | q_has_triangles (g : Graph) :
      Reachable g → Reachable (g.has_triangles).2
  | q_upper (g : Graph) :
      Reachable g → Reachable (g.is_upper_right_disconnected).2
  | q_commute (g : Graph) (cm : Bool) :
      Reachable g → Reachable (g.commute_quad_satisfied cm).2
  | q_connected (g : Graph) : Reachable g → Reachable (g.is_connected).2
  | q_node (g : Graph) (i : Nat) :
      Reachable g → Reachable (g.node_satisfied i).2

/-- Every reachable state is shape-correct. -/
theorem reachable_wf (g : Graph) (h : Reachable g) : ShapeWF g := by
  induction h with
  | new => exact ⟨⟨rfl, fun i hi => absurd hi (Nat.not_lt_zero i)⟩, rfl⟩
  | push g nd _ ih =>
    refine ⟨edgesWF_push g ih.1 nd, ?_⟩
    rw [push_cache_node, List.length_append, push_nodes_length,
      List.length_singleton, ih.2]
  | push_pair g p _ ih => exact ih
  | set g p v h1 h2 _ ih =>
    obtain ⟨a, b⟩ := p
    refine ⟨edgesWF_set g ih.1 (a, b) v, ?_⟩
    rw [set_cache_node, set_nodes]
    by_cases hz : g.get (a, b) ≠ 0
    · rw [if_pos hz, List.length_set, List.length_set]
      exact ih.2
    · rw [if_neg hz]
      exact ih.2
  | q_has_triangles g _ ih =>
    cases hc : g.cache_has_triangles with
    | true => rw [has_triangles_eq_cache g hc]; exact ih
    | false =>
      cases hcore : htCore g with
      | false => rw [has_triangles_eq_none g hc hcore]; exact ih
      | true => rw [has_triangles_eq_found g hc hcore]; exact ih
  | q_upper g _ ih =>
    cases hc : g.cache_upper_triangle_disconnected with
    | true => rw [upper_eq_cache g hc]; exact ih
    | false =>
      cases hcore : upperCore g with
      | false => rw [upper_eq_none g hc hcore]; exact ih
      | true => rw [upper_eq_found g hc hcore]; exact ih
  | q_commute g cm _ ih =>
    cases hc : g.cache_commute_quad_satisfied with
    | true => rw [commute_eq_cache g cm hc]; exact ih
    | false =>
      cases hcore : commuteCore g cm with
      | false => rw [commute_eq_none g cm hc hcore]; exact ih
      | true => rw [commute_eq_found g cm hc hcore]; exact ih
  | q_connected g _ ih =>
    unfold Graph.is_connected
    by_cases hc : g.cache_connected
    · rw [if_pos hc]
      exact ih
    · rw [if_neg hc]
      show ShapeWF (if connCore g then { g with cache_connected := true }
        else g)
      by_cases hcore : connCore g
      · rw [if_pos hcore]
        exact ih
      · rw [if_neg hcore]
        exact ih
  | q_node g i _ ih =>
    cases hc : g.cache_node_satisfied.getD i false with
    | true => rw [node_satisfied_eq_cache g i hc]; exact ih
    | false =>
      by_cases hres : nodeSatRes g i = []
      · rw [node_satisfied_eq_sat g i hc hres]
        refine ⟨ih.1, ?_⟩
        show (g.cache_node_satisfied.set i true).length = g.nodes.length
        rw [List.length_set]
        exact ih.2
      · rw [node_satisfied_eq_unsat g i hc hres]
        exact ih

/-- The cache cells whose truth survives every public operation: a set
`has_triangles` cell recomputes to true, a set `commute_quad_satisfied`
cell recomputes to true for at least one boolean argument, and every set
`node_satisfied` cell recomputes to the empty (satisfied) result. -/
def CacheInv (g : Graph) : Prop :=
  (g.cache_has_triangles = true → htCore g = true) ∧
  (g.cache_commute_quad_satisfied = true →
    commuteCore g true = true ∨ commuteCore g false = true) ∧
  (∀ i, g.cache_node_satisfied.getD i false = true → nodeSatRes g i = [])

/-- The cache invariant transfers along any change that keeps the nodes,
the edges, and the three tracked cache fields. -/
theorem cacheInv_congr (g h : Graph) (hn : h.nodes = g.nodes)
    (he : h.edges = g.edges)
    (h1 : h.cache_has_triangles = g.cache_has_triangles)
    (h2 : h.cache_commute_quad_satisfied = g.cache_commute_quad_satisfied)
    (h3 : h.cache_node_satisfied = g.cache_node_satisfied)
    (inv : CacheInv g) : CacheInv h := by
  obtain ⟨i1, i2, i3⟩ := inv
  refine ⟨fun hc => ?_, fun hc => ?_, fun k hk => ?_⟩
  · rw [htCore_congr g h hn he]
    exact i1 (h1 ▸ hc)
  · rcases i2 (h2 ▸ hc) with hcm | hcm
    · exact Or.inl (by rw [commuteCore_fields_congr g h hn he]; exact hcm)
    · exact Or.inr (by rw [commuteCore_fields_congr g h hn he]; exact hcm)
  · rw [nodeSatRes_congr g h k hn fun j => by unfold Graph.get; rw [he]]
    rw [h3] at hk
    exact i3 k hk

/-- **C2** (corrected).  In every state reachable through the public
operations, a set `has_triangles` cache cell implies the triangle scan
still succeeds, a set `commute_quad_satisfied` cache cell implies the quad
scan still passes for at least one boolean argument, and every set
`node_satisfied` cache cell implies that node's matching result is still
empty.  The full five-cell invariant claimed by the spec is refuted: the
`upper_triangle_disconnected` and `connected` cells, and the commute cell
at both arguments, admit reachable stale states. -/
theorem reachable_cache_cells_justified (g : Graph) (h : Reachable g) :
    CacheInv g := by
  induction h with
  | new =>
    exact ⟨fun hc => absurd hc Bool.false_ne_true,
      fun hc => absurd hc Bool.false_ne_true,
      fun k hk => absurd hk Bool.false_ne_true⟩
  | push g nd hr ih =>
    obtain ⟨hWF, hclen⟩ := reachable_wf g hr
    obtain ⟨i1, i2, i3⟩ := ih
    refine ⟨fun hc => htCore_push g nd (i1 hc), fun hc => ?_,
      fun k hk => ?_⟩
    · rcases i2 hc with hcm | hcm
      · exact Or.inl (by rw [commuteCore_push g hWF nd true]; exact hcm)
      · exact Or.inr (by rw [commuteCore_push g hWF nd false]; exact hcm)
    · rw [push_cache_node] at hk
      by_cases hlt : k < g.cache_node_satisfied.length
      · rw [getD_append_left hlt] at hk
        rw [nodeSatRes_push g hWF nd k (by omega)]
        exact i3 k hk
      · rw [getD_append_right (Nat.le_of_not_lt hlt)] at hk
        revert hk
        cases k - g.cache_node_satisfied.length with
        | zero => exact fun hk => absurd hk Bool.false_ne_true
        | succ m => exact fun hk => absurd hk Bool.false_ne_true
  | push_pair g p _ ih =>
    exact cacheInv_congr g (g.push_pair p) rfl rfl rfl rfl rfl ih
  | set g p v hp1 hp2 hr ih =>
    obtain ⟨hWF, hclen⟩ := reachable_wf g hr
    obtain ⟨i1, i2, i3⟩ := ih
    obtain ⟨a, b⟩ := p
    refine ⟨fun hc => ?_, fun hc => ?_, fun k hk => ?_⟩
    · rw [set_cache_ht] at hc
      by_cases hz : g.get (a, b) = 0
      · rw [if_neg (fun hx => hx hz)] at hc
        exact htCore_set_zero g a b v hz (i1 hc)
      · rw [if_pos hz] at hc
        exact absurd hc Bool.false_ne_true
    · rw [set_cache_commute] at hc
      by_cases hz : g.get (a, b) = 0 ∧ v = 1
      · rw [if_neg (not_not_intro hz)] at hc
        obtain ⟨hold, hv⟩ := hz
        subst hv
        rcases i2 hc with hcm | hcm
        · exact Or.inl (by
            rw [commuteCore_set_one g hWF a b hp1 hp2 hold true]
            exact hcm)
        · exact Or.inr (by
            rw [commuteCore_set_one g hWF a b hp1 hp2 hold false]
            exact hcm)
      · rw [if_pos hz] at hc
        exact absurd hc Bool.false_ne_true
    · rw [set_cache_node] at hk
      by_cases hz : g.get (a, b) = 0
      · rw [if_neg (fun hx => hx hz)] at hk
        exact nodeSatRes_set_zero g a b v k hz (i3 k hk)
      · rw [if_pos hz] at hk
        by_cases hkb : k = b
        · subst hkb
          rw [getD_set_false_self] at hk
          exact absurd hk Bool.false_ne_true
        · rw [getD_set_false_ne _ _ _ hkb] at hk
          by_cases hka : k = a
          · subst hka
            rw [getD_set_false_self] at hk
            exact absurd hk Bool.false_ne_true
          · rw [getD_set_false_ne _ _ _ hka] at hk
            rw [nodeSatRes_set_other g a b v k hka hkb]
            exact i3 k hk
  | q_has_triangles g _ ih =>
    cases hc : g.cache_has_triangles with
    | true => rw [has_triangles_eq_cache g hc]; exact ih
    | false =>
      cases hcore : htCore g with
      | false => rw [has_triangles_eq_none g hc hcore]; exact ih
      | true =>
        rw [has_triangles_eq_found g hc hcore]
        show CacheInv { g with cache_has_triangles := true }
        obtain ⟨i1, i2, i3⟩ := ih
        refine ⟨fun _ => ?_, fun hh => ?_, fun k hk => ?_⟩
        · rw [htCore_congr g { g with cache_has_triangles := true } rfl rfl]
          exact hcore
        · rcases i2 hh with hx | hx
          · exact Or.inl (by
              rw [commuteCore_fields_congr g
                { g with cache_has_triangles := true } rfl rfl]
              exact hx)
          · exact Or.inr (by
              rw [commuteCore_fields_congr g
                { g with cache_has_triangles := true } rfl rfl]
              exact hx)
        · rw [nodeSatRes_congr g { g with cache_has_triangles := true } k
            rfl fun j => rfl]
          exact i3 k hk
  | q_upper g _ ih =>
    cases hc : g.cache_upper_triangle_disconnected with
    | true => rw [upper_eq_cache g hc]; exact ih
    | false =>
      cases hcore : upperCore g with
      | false => rw [upper_eq_none g hc hcore]; exact ih
      | true =>
        rw [upper_eq_found g hc hcore]
        exact cacheInv_congr g
          { g with cache_upper_triangle_disconnected := true }
          rfl rfl rfl rfl rfl ih
  | q_commute g cm _ ih =>
    cases hc : g.cache_commute_quad_satisfied with
    | true => rw [commute_eq_cache g cm hc]; exact ih
    | false =>
      cases hcore : commuteCore g cm with
      | false => rw [commute_eq_none g cm hc hcore]; exact ih
      | true =>
        rw [commute_eq_found g cm hc hcore]
        show CacheInv { g with cache_commute_quad_satisfied := true }
        obtain ⟨i1, i2, i3⟩ := ih
        refine ⟨fun hh => ?_, fun _ => ?_, fun k hk => ?_⟩
        · rw [htCore_congr g
            { g with cache_commute_quad_satisfied := true } rfl rfl]
          exact i1 hh
        · cases cm with
          | true =>
            exact Or.inl (by
              rw [commuteCore_fields_congr g
                { g with cache_commute_quad_satisfied := true } rfl rfl]
              exact hcore)
          | false =>
            exact Or.inr (by
              rw [commuteCore_fields_congr g
                { g with cache_commute_quad_satisfied := true } rfl rfl]
              exact hcore)
        · rw [nodeSatRes_congr g
            { g with cache_commute_quad_satisfied := true } k rfl
            fun j => rfl]
          exact i3 k hk
  | q_connected g _ ih =>
    unfold Graph.is_connected
    by_cases hc : g.cache_connected
    · rw [if_pos hc]
      exact ih
    · rw [if_neg hc]
      show CacheInv
        (if connCore g then { g with cache_connected := true } else g)
      by_cases hcore : connCore g
      · rw [if_pos hcore]
        exact cacheInv_congr g { g with cache_connected := true }
          rfl rfl rfl rfl rfl ih
      · rw [if_neg hcore]
        exact ih
  | q_node g i _ ih =>
    cases hc : g.cache_node_satisfied.getD i false with
    | true => rw [node_satisfied_eq_cache g i hc]; exact ih
    | false =>
      by_cases hres : nodeSatRes g i = []
      · rw [node_satisfied_eq_sat g i hc hres]
        show CacheInv { g with
          cache_node_satisfied := g.cache_node_satisfied.set i true }
        obtain ⟨i1, i2, i3⟩ := ih
        refine ⟨fun hh => ?_, fun hh => ?_, fun k hk => ?_⟩
        · rw [htCore_congr g { g with
            cache_node_satisfied := g.cache_node_satisfied.set i true }
            rfl rfl]
          exact i1 hh
        · rcases i2 hh with hx | hx
          · exact Or.inl (by
              rw [commuteCore_fields_congr g { g with
                cache_node_satisfied := g.cache_node_satisfied.set i true }
                rfl rfl]
              exact hx)
          · exact Or.inr (by
              rw [commuteCore_fields_congr g { g with
                cache_node_satisfied := g.cache_node_satisfied.set i true }
                rfl rfl]
              exact hx)
        · rw [nodeSatRes_congr g { g with
            cache_node_satisfied := g.cache_node_satisfied.set i true } k
            rfl fun j => rfl]
          have hk' : (g.cache_node_satisfied.set i true).getD k false
              = true := hk
          by_cases hki : k = i
          · subst hki
            exact hres
          · rw [getD_set_ne (fun hx => hki hx.symm)] at hk'
            exact i3 k hk'
      · rw [node_satisfied_eq_unsat g i hc hres]
        exact ih

/-- Two connectable nodes, edge `(0,1)` pinned to `1`. -/
def gC2a : Graph := gTwoNodes.set (0, 1) 1

/-- The state after the `is_upper_right_disconnected` query, which sets
its cache cell (the pinning predicate holds). -/
def gC2b : Graph := (gC2a.is_upper_right_disconnected).2

/-- The state after writing `2` over the pinned cell: `old ≠ 0` and
`val ≥ 2`, so `set` keeps the `upper_triangle_disconnected` cache cell
although the pinning predicate now fails. -/
def gC2 : Graph := gC2b.set (0, 1) 2

/-- **C2** (counterexample): a state reachable through the public
operations whose `upper_triangle_disconnected` cache cell is set while
the predicate it caches is false, refuting the claimed invariant for that
cell. -/
theorem upper_right_cache_goes_stale :
    Reachable gC2 ∧ gC2.cache_upper_triangle_disconnected = true ∧
      upperCore gC2 = false := by
  refine ⟨?_, by decide, by decide⟩
  exact Reachable.set gC2b (0, 1) 2 (by decide) (by decide)
    (Reachable.q_upper gC2a
      (Reachable.set gTwoNodes (0, 1) 1 (by decide) (by decide)
        (Reachable.push (Graph.new.push ⟨0, false, []⟩) ⟨0, false, []⟩
          (Reachable.push Graph.new ⟨0, false, []⟩ Reachable.new))))

/-- **C2** (witness): the corrected invariant theorem applied at a
concrete reachable state. -/
theorem reachable_cache_cells_justified_witness :
    Reachable gTwoNodes ∧ CacheInv gTwoNodes :=
  ⟨Reachable.push (Graph.new.push ⟨0, false, []⟩) ⟨0, false, []⟩
      (Reachable.push Graph.new ⟨0, false, []⟩ Reachable.new),
    reachable_cache_cells_justified gTwoNodes
      (Reachable.push (Graph.new.push ⟨0, false, []⟩) ⟨0, false, []⟩
        (Reachable.push Graph.new ⟨0, false, []⟩ Reachable.new))⟩

end GraphSolver
